import Mathlib

/-!
# cai-workflows: the search/extraction pipeline of `twitter/webscraper` and `twitter/main.go`

A shallow embedding of

* `webscraper/improved_scraper.go`: `cleanText`, `extractActualURL`, `buildDuckDuckGoURL` and the
  extraction step (the `OnHTML` callback and the truncation) of `SearchWithColly`;
* `main.go`: the multi-query loop of `TwitterClient.searchRecentTweets`.

Go strings are byte sequences, so a string is a list of bytes (`GoString`).  The functions of the
Go standard library that the code calls (`strings`, `unicode`, `unicode/utf8`, `regexp`,
`net/url`) are embedded next to the code that uses them, each with a note of the Go function it
stands for.
-/

namespace Webscraper

/-! ## Strings -/

/-- A Go string: a sequence of bytes (each below 256), not necessarily valid UTF-8. -/
abbrev GoString := List Nat

/-- The bytes of an ASCII literal. -/
def lit (s : String) : GoString := s.toList.map Char.toNat

/-- Every element is a byte. -/
def IsBytes (s : GoString) : Prop := ∀ b ∈ s, b < 256

/-- Go `strings.HasPrefix(s, p)`. -/
def HasPrefix (s p : GoString) : Bool := p.isPrefixOf s

/-! ## `unicode/utf8` and `unicode.IsSpace` -/

/-- Go `utf8.RuneError`, U+FFFD. -/
def RuneError : Nat := 0xFFFD

/-- Go `utf8.RuneSelf`: bytes below it are single-byte runes. -/
def RuneSelf : Nat := 0x80

/-- Go `utf8.RuneStart(b)`: `b&0xC0 != 0x80`, the byte is not a continuation byte. -/
def RuneStart (b : Nat) : Bool := !(0x80 ≤ b && b ≤ 0xBF)

/-- The size that the table `first` of `unicode/utf8` gives a leading byte of a
multi-byte sequence (`0` for the bytes it marks invalid, `xx`). -/
def leadSize (s0 : Nat) : Nat :=
  if 0xC2 ≤ s0 ∧ s0 ≤ 0xDF then 2
  else if 0xE0 ≤ s0 ∧ s0 ≤ 0xEF then 3
  else if 0xF0 ≤ s0 ∧ s0 ≤ 0xF4 then 4
  else 0

/-- The lower bound of `acceptRanges` for the byte after the leading byte `s0`. -/
def acceptLo (s0 : Nat) : Nat :=
  if s0 = 0xE0 then 0xA0 else if s0 = 0xF0 then 0x90 else 0x80

/-- The upper bound of `acceptRanges` for the byte after the leading byte `s0`. -/
def acceptHi (s0 : Nat) : Nat :=
  if s0 = 0xED then 0x9F else if s0 = 0xF4 then 0x8F else 0xBF

/-- Go `utf8.DecodeRuneInString`: the first rune of `s` and its width in bytes;
`(RuneError, 0)` on the empty string and `(RuneError, 1)` on an invalid encoding.
The masks and shifts of the Go code are written with `%`, `*` and `+`
(`s0&mask2 << 6 | s1&maskx` is `s0 % 32 * 64 + s1 % 64`, the bit ranges being disjoint). -/
def DecodeRuneInString (s : GoString) : Nat × Nat :=
  match s with
  | [] => (RuneError, 0)
  | s0 :: t =>
    if s0 < RuneSelf then (s0, 1)
    else if leadSize s0 = 0 then (RuneError, 1)
    else if s.length < leadSize s0 then (RuneError, 1)
    else
      match t with
      | [] => (RuneError, 1)
      | s1 :: t1 =>
        if s1 < acceptLo s0 ∨ acceptHi s0 < s1 then (RuneError, 1)
        else if leadSize s0 ≤ 2 then (s0 % 32 * 64 + s1 % 64, 2)
        else
          match t1 with
          | [] => (RuneError, 1)
          | s2 :: t2 =>
            if s2 < 0x80 ∨ 0xBF < s2 then (RuneError, 1)
            else if leadSize s0 ≤ 3 then (s0 % 16 * 4096 + s1 % 64 * 64 + s2 % 64, 3)
            else
              match t2 with
              | [] => (RuneError, 1)
              | s3 :: _ =>
                if s3 < 0x80 ∨ 0xBF < s3 then (RuneError, 1)
                else (s0 % 8 * 262144 + s1 % 64 * 4096 + s2 % 64 * 64 + s3 % 64, 4)

/-- The backward scan of `utf8.DecodeLastRuneInString`: starting at index `start`, step down
while `start ≥ lim` and the byte there is not a rune start; the result is the index where the
loop stops (`-1` stands for running below index 0). -/
def lastRuneStart (s : GoString) (lim : Int) : Nat → Int → Int
  | 0, start => start
  | fuel + 1, start =>
    if start < lim then start
    else if RuneStart (s.getD start.toNat 0) then start
    else lastRuneStart s lim fuel (start - 1)

/-- Go `utf8.DecodeLastRuneInString`: the last rune of `s` and its width. -/
def DecodeLastRuneInString (s : GoString) : Nat × Nat :=
  let stop := s.length
  if stop = 0 then (RuneError, 0)
  else
    let r := s.getD (stop - 1) 0
    if r < RuneSelf then (r, 1)
    else
      -- `lim := end - UTFMax; if lim < 0 { lim = 0 }`
      let lim : Int := max ((stop : Int) - 4) 0
      -- `for start--; start >= lim; start-- { if RuneStart(s[start]) { break } }`
      let start0 := lastRuneStart s lim 4 ((stop : Int) - 2)
      -- `if start < 0 { start = 0 }`
      let start := start0.toNat
      let (r, size) := DecodeRuneInString (s.drop start)
      if start + size ≠ stop then (RuneError, 1) else (r, size)

/-- Go `unicode.IsSpace`: the Latin-1 spaces `\t \n \v \f \r`, space, U+0085, U+00A0 and the
other code points of the Unicode property `White_Space`. -/
def IsSpace (r : Nat) : Bool :=
  (0x09 ≤ r && r ≤ 0x0D) || r == 0x20 || r == 0x85 || r == 0xA0 || r == 0x1680 ||
  (0x2000 ≤ r && r ≤ 0x200A) || r == 0x2028 || r == 0x2029 || r == 0x202F || r == 0x205F ||
  r == 0x3000

/-! ## `strings.TrimSpace` -/

/-- The loop of `strings.TrimLeftFunc(s, unicode.IsSpace)`: drop leading runes while they are
white space.  Each step drops at least one byte, so `s.length` steps are enough. -/
def trimLeftLoop : Nat → GoString → GoString
  | 0, s => s
  | fuel + 1, s =>
    if s = [] then s
    else if IsSpace (DecodeRuneInString s).1 then
      trimLeftLoop fuel (s.drop (DecodeRuneInString s).2)
    else s

/-- Go `strings.TrimLeftFunc(s, unicode.IsSpace)`. -/
def TrimLeftSpace (s : GoString) : GoString := trimLeftLoop s.length s

/-- The loop of `strings.TrimRightFunc(s, unicode.IsSpace)`: drop trailing runes while they are
white space. -/
def trimRightLoop : Nat → GoString → GoString
  | 0, s => s
  | fuel + 1, s =>
    if s = [] then s
    else if IsSpace (DecodeLastRuneInString s).1 then
      trimRightLoop fuel (s.take (s.length - (DecodeLastRuneInString s).2))
    else s

/-- Go `strings.TrimRightFunc(s, unicode.IsSpace)`. -/
def TrimRightSpace (s : GoString) : GoString := trimRightLoop s.length s

/-- Go `strings.TrimSpace(s)`: `s` without its leading and trailing white space, as defined by
Unicode (`TrimFunc(s, unicode.IsSpace)`, which is `TrimRightFunc(TrimLeftFunc(s, f), f)`). -/
def TrimSpace (s : GoString) : GoString := TrimRightSpace (TrimLeftSpace s)

/-- The byte sequence is the encoding of exactly one white-space rune: it decodes to a rune
with `unicode.IsSpace` whose width is the whole sequence. -/
def IsSpaceRune (e : GoString) : Prop :=
  IsSpace (DecodeRuneInString e).1 = true ∧ (DecodeRuneInString e).2 = e.length

/-- The string is made of white-space runes only: a concatenation of encodings of runes with
`unicode.IsSpace`. -/
def SpaceRunes (s : GoString) : Prop :=
  ∃ runes : List GoString, s = runes.flatten ∧ ∀ e ∈ runes, IsSpaceRune e

/-! ## `regexp`: the pattern `\s+` -/

/-- The class `\s` of Go regular expressions (RE2 syntax): `[\t\n\f\r ]`.  It has neither the
vertical tab `\v` nor any non-ASCII space. -/
def isReSpace (b : Nat) : Bool :=
  b == 0x09 || b == 0x0A || b == 0x0C || b == 0x0D || b == 0x20

/-- The scan of `ReplaceAllString` for the pattern `\s+` and the replacement `" "`; `inRun` says
that the byte before belongs to the match being replaced, whose single space is already
written.  A match of `\s+` is a maximal run of `\s` bytes (leftmost, greedy). -/
def replaceSpaceRuns : Bool → GoString → GoString
  | _, [] => []
  | inRun, b :: rest =>
    if isReSpace b then
      if inRun then replaceSpaceRuns true rest else 0x20 :: replaceSpaceRuns true rest
    else b :: replaceSpaceRuns false rest

/-- Go `regexp.MustCompile("\\s+").ReplaceAllString(text, " ")`. -/
def ReplaceAllSpaceRuns (text : GoString) : GoString := replaceSpaceRuns false text

/-- Every `\s` byte of the string is a space, and no space follows a space (nor starts the
string, when `afterSpace` is set). -/
def singleSpaces : Bool → GoString → Bool
  | _, [] => true
  | afterSpace, b :: rest =>
    if isReSpace b then b == 0x20 && !afterSpace && singleSpaces true rest
    else singleSpaces false rest

/-! ## `cleanText` (improved_scraper.go) -/

/-- The function `cleanText` of the scraper:
`cleaned := re.ReplaceAllString(text, " "); return strings.TrimSpace(cleaned)`. -/
def cleanText (text : GoString) : GoString :=
  let cleaned := ReplaceAllSpaceRuns text
  TrimSpace cleaned

/-! ## `net/url`: escaping -/

/-- The escaping modes of `net/url`. -/
inductive Encoding where
  | encodePath
  | encodePathSegment
  | encodeHost
  | encodeZone
  | encodeUserPassword
  | encodeQueryComponent
  | encodeFragment
  deriving DecidableEq, Repr

/-- ASCII letter or digit. -/
def isAlnum (c : Nat) : Bool :=
  (0x61 ≤ c && c ≤ 0x7A) || (0x41 ≤ c && c ≤ 0x5A) || (0x30 ≤ c && c ≤ 0x39)

/-- Go `url.shouldEscape(c, mode)`. -/
def shouldEscape (c : Nat) (mode : Encoding) : Bool :=
  -- §2.3 Unreserved characters (alphanum)
  if isAlnum c then false
  else if (mode = .encodeHost ∨ mode = .encodeZone) ∧
      c ∈ [0x21, 0x24, 0x26, 0x27, 0x28, 0x29, 0x2A, 0x2B, 0x2C, 0x3B, 0x3D, 0x3A, 0x5B, 0x5D,
        0x3C, 0x3E, 0x22] then false   -- ! $ & ' ( ) * + , ; = : [ ] < > "
  else if c ∈ [0x2D, 0x5F, 0x2E, 0x7E] then false   -- - _ . ~
  else if c ∈ [0x24, 0x26, 0x2B, 0x2C, 0x2F, 0x3A, 0x3B, 0x3D, 0x3F, 0x40] ∧
      mode ≠ .encodeHost ∧ mode ≠ .encodeZone then   -- $ & + , / : ; = ? @
    match mode with
    | .encodePath => c == 0x3F
    | .encodePathSegment => c == 0x2F || c == 0x3B || c == 0x2C || c == 0x3F
    | .encodeUserPassword => c == 0x40 || c == 0x2F || c == 0x3F || c == 0x3A
    | .encodeQueryComponent => true
    | _ => false
  else if mode = .encodeFragment ∧ c ∈ [0x21, 0x28, 0x29, 0x2A] then false   -- ! ( ) *
  else true

/-- Go `url.ishex`. -/
def ishex (c : Nat) : Bool :=
  (0x30 ≤ c && c ≤ 0x39) || (0x61 ≤ c && c ≤ 0x66) || (0x41 ≤ c && c ≤ 0x46)

/-- Go `url.unhex`. -/
def unhex (c : Nat) : Nat :=
  if 0x30 ≤ c ∧ c ≤ 0x39 then c - 0x30
  else if 0x61 ≤ c ∧ c ≤ 0x66 then c - 0x61 + 10
  else if 0x41 ≤ c ∧ c ≤ 0x46 then c - 0x41 + 10
  else 0

/-- The digit `"0123456789ABCDEF"[n]` (`upperhex`). -/
def upperhex (n : Nat) : Nat := if n < 10 then 0x30 + n else 0x41 + (n - 10)

/-- Go `url.escape(s, mode)`: a space becomes `+` in a query component, every other byte that
`shouldEscape` names becomes `%XX`, the rest is copied. -/
def escape (mode : Encoding) : GoString → GoString
  | [] => []
  | c :: rest =>
    if c = 0x20 ∧ mode = .encodeQueryComponent then 0x2B :: escape mode rest
    else if shouldEscape c mode then
      0x25 :: upperhex (c / 16) :: upperhex (c % 16) :: escape mode rest
    else c :: escape mode rest

/-- Go `url.QueryEscape`. -/
def QueryEscape (s : GoString) : GoString := escape .encodeQueryComponent s

/-- Go `url.unescape(s, mode)`: `none` is the error result (`EscapeError` for a `%` that is not
followed by two hex digits, and the host errors of the modes `encodeHost` and `encodeZone`);
otherwise `%XX` becomes the byte `XX`, `+` becomes a space in a query component, the rest is
copied.  The Go code validates in a first pass and decodes in a second; here a failure
anywhere makes the whole result `none`. -/
def unescape (mode : Encoding) : GoString → Option GoString
  | [] => some []
  | c :: rest =>
    if c = 0x25 then
      match rest with
      | h1 :: h2 :: rest2 =>
        if !ishex h1 || !ishex h2 then none
        else if mode = .encodeHost ∧ unhex h1 < 8 ∧ ¬ (h1 = 0x32 ∧ h2 = 0x35) then none
        else if mode = .encodeZone ∧ ¬ (h1 = 0x32 ∧ h2 = 0x35) ∧ unhex h1 * 16 + unhex h2 ≠ 0x20 ∧
            shouldEscape (unhex h1 * 16 + unhex h2) .encodeHost then none
        else (unescape mode rest2).map (fun t => (unhex h1 * 16 + unhex h2) :: t)
      | _ => none
    else if c = 0x2B then
      (unescape mode rest).map
        (fun t => (if mode = .encodeQueryComponent then 0x20 else 0x2B) :: t)
    else if (mode = .encodeHost ∨ mode = .encodeZone) ∧ c < 0x80 ∧ shouldEscape c .encodeHost then
      none
    else (unescape mode rest).map (fun t => c :: t)

/-- Go `url.QueryUnescape`; `none` is the error result. -/
def QueryUnescape (s : GoString) : Option GoString := unescape .encodeQueryComponent s

/-! ## `net/url`: `Values` -/

/-- Go `url.Values`, a `map[string][]string`: an association list with distinct keys. -/
abbrev Values := List (GoString × List GoString)

/-- Go `v[key]`: the values of a key, empty when the key is absent. -/
def Values.lookup (v : Values) (key : GoString) : List GoString :=
  match v with
  | [] => []
  | (k, vs) :: rest => if k = key then vs else Values.lookup rest key

/-- Go `Values.Get`: the first value of the key, or the empty string. -/
def Values.Get (v : Values) (key : GoString) : GoString :=
  match Values.lookup v key with
  | [] => []
  | x :: _ => x

/-- Go `Values.Add`: `v[key] = append(v[key], value)`. -/
def Values.Add (v : Values) (key value : GoString) : Values :=
  match v with
  | [] => [(key, [value])]
  | (k, vs) :: rest => if k = key then (k, vs ++ [value]) :: rest else (k, vs) :: Values.Add rest key value

/-- Go string comparison `a < b`: lexicographic on bytes. -/
def strLt : GoString → GoString → Bool
  | [], [] => false
  | [], _ :: _ => true
  | _ :: _, [] => false
  | a :: as, b :: bs => if a < b then true else if b < a then false else strLt as bs

/-- Insertion of a key into a sorted list of keys. -/
def insertKey (k : GoString) : List GoString → List GoString
  | [] => [k]
  | x :: xs => if strLt x k then x :: insertKey k xs else k :: x :: xs

/-- Go `slices.Sort(keys)` on the keys of a map. -/
def sortKeys (keys : List GoString) : List GoString := keys.foldr insertKey []

/-- The inner loop of `Values.Encode` for one key: each value is written as
`key=value`, escaped, with `&` before it when the buffer is not empty. -/
def encodeKey (keyEscaped : GoString) : List GoString → GoString → GoString
  | [], buf => buf
  | v :: vs, buf =>
    let buf := if buf ≠ [] then buf ++ [0x26] else buf
    encodeKey keyEscaped vs (buf ++ keyEscaped ++ [0x3D] ++ QueryEscape v)

/-- The outer loop of `Values.Encode` over the sorted keys. -/
def encodeKeys (v : Values) : List GoString → GoString → GoString
  | [], buf => buf
  | k :: ks, buf => encodeKeys v ks (encodeKey (QueryEscape k) (Values.lookup v k) buf)

/-- Go `Values.Encode`: the URL-encoded form `bar=baz&foo=quux`, sorted by key. -/
def Values.Encode (v : Values) : GoString :=
  if v.length = 0 then []
  else encodeKeys v (sortKeys (v.map Prod.fst)) []

/-- Go `strings.Cut(s, sep)` for a one-byte separator: the text before and after the first
`sep`, and whether `sep` occurs. -/
def Cut (sep : Nat) : GoString → GoString × GoString × Bool
  | [] => ([], [], false)
  | c :: rest =>
    if c = sep then ([], rest, true)
    else ((c :: (Cut sep rest).1), (Cut sep rest).2.1, (Cut sep rest).2.2)

/-- The loop of `url.parseQuery`, whose error result `Query()` discards: the query is cut at
each `&`; a piece with a semicolon, an empty piece, and a piece whose key or value does not
unescape are skipped; the others are added to the map.  Each turn consumes at least one
byte, so `query.length` turns are enough. -/
def parseQueryLoop : Nat → GoString → Values → Values
  | 0, _, m => m
  | fuel + 1, query, m =>
    if query = [] then m
    else
      let key := (Cut 0x26 query).1
      let query := (Cut 0x26 query).2.1
      if 0x3B ∈ key then parseQueryLoop fuel query m
      else if key = [] then parseQueryLoop fuel query m
      else
        let value := (Cut 0x3D key).2.1
        let key := (Cut 0x3D key).1
        match QueryUnescape key with
        | none => parseQueryLoop fuel query m
        | some key1 =>
          match QueryUnescape value with
          | none => parseQueryLoop fuel query m
          | some value1 => parseQueryLoop fuel query (Values.Add m key1 value1)

/-- Go `url.ParseQuery(query)` without its error: the map that `URL.Query()` returns. -/
def ParseQuery (query : GoString) : Values := parseQueryLoop query.length query []

/-! ## `net/url`: `Parse` -/

/-- The fields of Go `url.URL` that `url.Parse` fills here. -/
structure URL where
  Scheme : GoString := []
  Opaque : GoString := []
  Host : GoString := []
  Path : GoString := []
  ForceQuery : Bool := false
  RawQuery : GoString := []
  Fragment : GoString := []
  deriving DecidableEq, Repr

/-- Go `url.stringContainsCTLByte`: a byte below 0x20 or the byte 0x7f. -/
def stringContainsCTLByte (s : GoString) : Bool := s.any (fun b => b < 0x20 || b == 0x7F)

/-- ASCII letter. -/
def isLetter (c : Nat) : Bool := (0x61 ≤ c && c ≤ 0x7A) || (0x41 ≤ c && c ≤ 0x5A)

/-- The loop of Go `url.getScheme` at index `i`, the bytes before `i` being `seen` (in reverse):
`none` is the error "missing protocol scheme", otherwise the scheme and the rest. -/
def getSchemeLoop (rawURL : GoString) : GoString → GoString → Option (GoString × GoString)
  | _, [] => some ([], rawURL)
  | seen, c :: rest =>
    if isLetter c then getSchemeLoop rawURL (c :: seen) rest
    else if (0x30 ≤ c ∧ c ≤ 0x39) ∨ c = 0x2B ∨ c = 0x2D ∨ c = 0x2E then
      if seen = [] then some ([], rawURL) else getSchemeLoop rawURL (c :: seen) rest
    else if c = 0x3A then
      if seen = [] then none else some (seen.reverse, rest)
    else some ([], rawURL)

/-- Go `url.getScheme`. -/
def getScheme (rawURL : GoString) : Option (GoString × GoString) := getSchemeLoop rawURL [] rawURL

/-- Go `strings.ToLower` on ASCII letters (a scheme has only ASCII bytes). -/
def toLowerASCII (s : GoString) : GoString :=
  s.map (fun c => if 0x41 ≤ c ∧ c ≤ 0x5A then c + 0x20 else c)

/-- Go `url.validOptionalPort`: empty, or a colon followed by digits. -/
def validOptionalPort (port : GoString) : Bool :=
  match port with
  | [] => true
  | c :: digits => c == 0x3A && digits.all (fun b => 0x30 ≤ b && b ≤ 0x39)

/-- The text from the last `:` of `host` on, when there is one (`host[strings.LastIndex(host, ":"):]`). -/
def fromLastColon : GoString → Option GoString
  | [] => none
  | c :: rest =>
    match fromLastColon rest with
    | some t => some t
    | none => if c = 0x3A then some (c :: rest) else none

/-- Go `url.parseAuthority` for an authority without userinfo and without an IP literal in
brackets, which is all that the scraper parses (its authority is the literal
`duckduckgo.com`); an authority with `@` or a leading `[` is outside this embedding and is
reported as an error.  Otherwise as `parseHost`: the port after the last colon must be
digits, and the host must unescape in mode `encodeHost`. -/
def parseAuthority (authority : GoString) : Option GoString :=
  if 0x40 ∈ authority then none
  else if HasPrefix authority [0x5B] then none
  else
    match fromLastColon authority with
    | some colonPort => if validOptionalPort colonPort then unescape .encodeHost authority else none
    | none => unescape .encodeHost authority

/-- The second half of Go `url.parse(rawURL, false)`, after the scheme and the query are split
off: opaque rootless paths, the colon check of the first path segment, the authority and
`setPath`; `none` is an error result. -/
def parseHierarchy (scheme rest : GoString) (forceQuery : Bool) (rawQuery : GoString) :
    Option URL :=
  if !HasPrefix rest [0x2F] && scheme ≠ [] then
    -- rootless paths are opaque
    some { Scheme := scheme, Opaque := rest, ForceQuery := forceQuery, RawQuery := rawQuery }
  else if !HasPrefix rest [0x2F] && 0x3A ∈ (Cut 0x2F rest).1 then
    none   -- first path segment in URL cannot contain colon
  else
    let hasAuthority : Bool :=
      (scheme ≠ [] || !HasPrefix rest [0x2F, 0x2F, 0x2F]) && HasPrefix rest [0x2F, 0x2F]
    let authority := if hasAuthority then (rest.drop 2).takeWhile (fun b => b != 0x2F) else []
    let rest := if hasAuthority then (rest.drop 2).dropWhile (fun b => b != 0x2F) else rest
    match (if hasAuthority then parseAuthority authority else some []) with
    | none => none
    | some host =>
      -- `setPath(rest)`
      match unescape .encodePath rest with
      | none => none
      | some path =>
        some { Scheme := scheme, Host := host, Path := path, ForceQuery := forceQuery,
               RawQuery := rawQuery }

/-- Go `url.parse(rawURL, false)`; `none` is an error result. -/
def parse (rawURL : GoString) : Option URL :=
  if stringContainsCTLByte rawURL then none
  else if rawURL = [0x2A] then some { Path := [0x2A] }
  else
    match getScheme rawURL with
    | none => none
    | some (scheme, rest) =>
      let scheme := toLowerASCII scheme
      -- the query is what follows the first `?`; a single, final `?` only forces the query
      let forceQuery : Bool := rest.getLast? = some 0x3F && rest.count 0x3F = 1
      let rawQuery := if forceQuery then [] else (Cut 0x3F rest).2.1
      let rest := if forceQuery then rest.dropLast else (Cut 0x3F rest).1
      parseHierarchy scheme rest forceQuery rawQuery

/-- Go `url.Parse`: the fragment after the first `#` is cut off and unescaped in mode
`encodeFragment`, the rest goes through `parse`; `none` is the error result. -/
def Parse (rawURL : GoString) : Option URL :=
  let u := (Cut 0x23 rawURL).1
  let frag := (Cut 0x23 rawURL).2.1
  match parse u with
  | none => none
  | some url =>
    if frag = [] then some url
    else
      match unescape .encodeFragment frag with
      | none => none
      | some fragment => some { url with Fragment := fragment }

/-- Go `(*URL).Query`: `ParseQuery(u.RawQuery)` without its error. -/
def URL.Query (u : URL) : Values := ParseQuery u.RawQuery

/-! ## The scraper (improved_scraper.go) -/

/-- The function `buildDuckDuckGoURL` of the scraper. -/
def buildDuckDuckGoURL (searchTerm : GoString) : GoString :=
  let baseURL := lit "https://duckduckgo.com/html/"
  let params : Values := []
  let params := params.Add (lit "q") searchTerm
  let params := params.Add (lit "t") (lit "h_")
  let params := params.Add (lit "ia") (lit "web")
  baseURL ++ lit "?" ++ params.Encode

/-- The function `extractActualURL` of the scraper. -/
def extractActualURL (redirectURL : GoString) : GoString :=
  -- the statements after the first `if` block
  let tail : GoString := if HasPrefix redirectURL (lit "http") then redirectURL else []
  if HasPrefix redirectURL (lit "/l/?uddg=") then
    match Parse (lit "https://duckduckgo.com" ++ redirectURL) with
    | none => []
    | some parsedURL =>
      let uddg := parsedURL.Query.Get (lit "uddg")
      if uddg ≠ [] then
        match QueryUnescape uddg with
        | none => uddg
        | some decodedURL => decodedURL
      else tail
  else tail

/-- The type `Article` of types.go. -/
structure Article where
  Title : GoString
  URL : GoString
  Description : GoString
  deriving DecidableEq, Repr

/-- What the `OnHTML(".result", ...)` callback reads from one result container: the texts and
attributes that `e.ChildText` and `e.ChildAttr` return for the primary and the fallback
selectors. -/
structure ResultElement where
  /-- The value of `e.ChildText(".result__title a")`. -/
  titleText : GoString
  /-- The value of `e.ChildText("a[data-testid='result-title-a']")`. -/
  titleTextAlt : GoString
  /-- The value of `e.ChildAttr(".result__title a", "href")`. -/
  href : GoString
  /-- The value of `e.ChildAttr("a[data-testid='result-title-a']", "href")`. -/
  hrefAlt : GoString
  /-- The value of `e.ChildText(".result__snippet")`. -/
  snippetText : GoString
  /-- The value of `e.ChildText("[data-testid='result-snippet']")`. -/
  snippetTextAlt : GoString
  deriving DecidableEq, Repr

/-- The local variable `title` of the callback: the trimmed text of the primary selector, or of
the fallback selector when that is empty. -/
def ResultElement.title (e : ResultElement) : GoString :=
  let title := TrimSpace e.titleText
  if title = [] then TrimSpace e.titleTextAlt else title

/-- The local variable `link` of the callback: the `href` of the primary selector, or of the
fallback selector when that is empty. -/
def ResultElement.link (e : ResultElement) : GoString :=
  let link := e.href
  if link = [] then e.hrefAlt else link

/-- The local variable `description` of the callback: the trimmed snippet of the primary
selector, or of the fallback selector when that is empty. -/
def ResultElement.description (e : ResultElement) : GoString :=
  let description := TrimSpace e.snippetText
  if description = [] then TrimSpace e.snippetTextAlt else description

/-- The `OnHTML(".result", ...)` callback of `SearchWithColly`, as a step on the slice
`articles`. -/
def onResult (articles : List Article) (e : ResultElement) : List Article :=
  let title := e.title
  let link := e.link
  let description := e.description
  if title ≠ [] ∧ link ≠ [] then
    -- Parse redirect URL if needed
    let actualURL := extractActualURL link
    let actualURL := if actualURL = [] then link else actualURL
    articles ++ [{ Title := cleanText title, URL := actualURL, Description := cleanText description }]
  else articles

/-- The record that the callback appends for one result container, if it appends one. -/
def candidate (e : ResultElement) : Option Article := (onResult [] e).head?

/-- The error that `SearchWithColly` returns: "failed to visit search URL" around the error of
`c.Visit`. -/
structure ScrapeError where
  cause : GoString
  deriving DecidableEq, Repr

/-- The function `SearchWithColly` after the request: `elements` are the `.result` containers
the collector matched, in document order (the callback runs on each), `visitErr` is the error
of `c.Visit`, if any. -/
def SearchWithColly (elements : List ResultElement) (visitErr : Option GoString) :
    List Article × Option ScrapeError :=
  let articles := elements.foldl onResult []
  match visitErr with
  | some err => ([], some { cause := err })
  | none =>
    -- Limit to top 10
    let articles := if articles.length > 10 then articles.take 10 else articles
    (articles, none)

end Webscraper

/-! ## The multi-query run (main.go) -/

namespace Main

open Webscraper

/-- The type `Tweet` of main.go (the fields the search loop prints). -/
structure Tweet where
  ID : GoString
  Text : GoString
  AuthorID : GoString
  LikeCount : Nat
  RetweetCount : Nat
  deriving DecidableEq, Repr

/-- What one turn of the search loop receives from upstream: `tc.httpClient.Get` fails, or
there is a response with a status code whose body `json.Unmarshal` rejects (`none`) or decodes
to `response.Data`. -/
inductive Fetch where
  | transportError
  | response (statusCode : Nat) (data : Option (List Tweet))
  deriving DecidableEq, Repr

/-- The two errors of `searchRecentTweets`: `"rate limit"` and `"no tweets found"`. -/
inductive RunError where
  | rateLimit
  | noTweets
  deriving DecidableEq, Repr

/-- The outcome of a run: the returned error, the counter `totalTweets` at the end, and the
requests made, in order, each search term with what it received. -/
structure Run where
  err : Option RunError
  totalTweets : Nat
  fetched : List (GoString × Fetch)
  deriving DecidableEq, Repr

/-- The URL of one search request: the `fmt.Sprintf` of the loop. -/
def apiURL (baseURL searchTerm : GoString) : GoString :=
  let encodedQuery := QueryEscape searchTerm
  baseURL ++ lit "/tweets/search/recent?query=" ++ encodedQuery ++
    lit "&max_results=5&tweet.fields=created_at,public_metrics,author_id&expansions=author_id&user.fields=username,name"

/-- The inner loop `for _, tweet := range response.Data`: every tweet printed increments
`totalTweets`, and the loop breaks once the counter is 10. -/
def printTweets : List Tweet → Nat → Nat
  | [], totalTweets => totalTweets
  | _ :: rest, totalTweets =>
    if totalTweets ≥ 10 then totalTweets else printTweets rest (totalTweets + 1)

/-- The statements after the loop: `"no tweets found"` when the counter is zero. -/
def finish (totalTweets : Nat) (fetched : List (GoString × Fetch)) : Run :=
  if totalTweets = 0 then { err := some .noTweets, totalTweets := totalTweets, fetched := fetched }
  else { err := none, totalTweets := totalTweets, fetched := fetched }

/-- The loop `for _, searchTerm := range searchTerms` of `searchRecentTweets`, from the state
`totalTweets` and the requests made so far; `get n url` is what the `n`-th request of the run
(counted from 0), to `url`, receives. -/
def searchLoop (baseURL : GoString) (get : Nat → GoString → Fetch) :
    List GoString → Nat → List (GoString × Fetch) → Run
  | [], totalTweets, fetched => finish totalTweets fetched
  | searchTerm :: rest, totalTweets, fetched =>
    if totalTweets ≥ 10 then finish totalTweets fetched
    else
      let resp := get fetched.length (apiURL baseURL searchTerm)
      let fetched := fetched ++ [(searchTerm, resp)]
      match resp with
      | .transportError => searchLoop baseURL get rest totalTweets fetched
      | .response statusCode data =>
        if statusCode = 429 then
          { err := some .rateLimit, totalTweets := totalTweets, fetched := fetched }
        else if statusCode ≠ 200 then searchLoop baseURL get rest totalTweets fetched
        else
          match data with
          | none => searchLoop baseURL get rest totalTweets fetched
          | some tweets =>
            if tweets.length = 0 then searchLoop baseURL get rest totalTweets fetched
            else searchLoop baseURL get rest (printTweets tweets totalTweets) fetched

/-- The search terms of `searchRecentTweets`. -/
def searchTerms : List GoString :=
  [lit "from:github -is:retweet", lit "golang programming -is:retweet"]

/-- A run of the loop over a batch of queries, from `totalTweets := 0` and no request made. -/
def searchBatch (baseURL : GoString) (get : Nat → GoString → Fetch) (qs : List GoString) : Run :=
  searchLoop baseURL get qs 0 []

/-- The method `TwitterClient.searchRecentTweets`: the run over its two search terms. -/
def searchRecentTweets (baseURL : GoString) (get : Nat → GoString → Fetch) : Run :=
  searchBatch baseURL get searchTerms

/-- The response is the rate-limit signal: status 429. -/
def Fetch.isRateLimit : Fetch → Bool
  | .response statusCode _ => statusCode == 429
  | .transportError => false

/-- The response is one of the other per-query failures: a transport error, a status other
than 200 (and other than 429), an undecodable body, or empty data. -/
def Fetch.isOtherFailure : Fetch → Bool
  | .transportError => true
  | .response statusCode data =>
    statusCode != 429 && (statusCode != 200 || data == none || data == some [])

/-- The number of results that a response carries: the length of `response.Data` of a decoded
response with status 200, and zero otherwise. -/
def Fetch.results : Fetch → Nat
  | .response statusCode (some tweets) => if statusCode = 200 then tweets.length else 0
  | _ => 0

/-- The number of results that the responses of a list of requests carry together. -/
def resultsSum (fetched : List (GoString × Fetch)) : Nat :=
  (fetched.map (fun f => f.2.results)).sum

end Main

/-! # Theorems -/

namespace Webscraper

/-! ### Decoding runes -/

theorem isSpace_runeError : IsSpace RuneError = false := by decide

theorem leadSize_cases (a : Nat) : leadSize a = 0 ∨ leadSize a = 2 ∨ leadSize a = 3 ∨ leadSize a = 4 := by
  unfold leadSize; split_ifs <;> simp

theorem acceptLo_ge (a : Nat) : 0x80 ≤ acceptLo a := by
  unfold acceptLo; split_ifs <;> omega

theorem acceptHi_le (a : Nat) : acceptHi a ≤ 0xBF := by
  unfold acceptHi; split_ifs <;> omega

theorem leadSize_lead (a : Nat) (h : leadSize a ≠ 0) : 0xC2 ≤ a := by
  unfold leadSize at h; split_ifs at h <;> omega

theorem decode_space_cases (s : GoString) (h : IsSpace (DecodeRuneInString s).1 = true) :
    (∃ a t, s = a :: t ∧ a < 0x80 ∧ DecodeRuneInString s = (a, 1)) ∨
    (∃ a b t, s = a :: b :: t ∧ 0xC2 ≤ a ∧ (0x80 ≤ b ∧ b ≤ 0xBF) ∧
      (DecodeRuneInString s).2 = 2 ∧
      ∀ u, DecodeRuneInString (a :: b :: u) = DecodeRuneInString s) ∨
    (∃ a b c t, s = a :: b :: c :: t ∧ 0xC2 ≤ a ∧ (0x80 ≤ b ∧ b ≤ 0xBF) ∧
      (0x80 ≤ c ∧ c ≤ 0xBF) ∧ (DecodeRuneInString s).2 = 3 ∧
      ∀ u, DecodeRuneInString (a :: b :: c :: u) = DecodeRuneInString s) := by
  rcases s with _ | ⟨a, t⟩
  · simp [DecodeRuneInString, isSpace_runeError] at h
  · by_cases ha : a < 0x80
    · left
      exact ⟨a, t, rfl, ha, by simp [DecodeRuneInString, RuneSelf, ha]⟩
    · right
      have hlo := acceptLo_ge a
      have hhi := acceptHi_le a
      rcases t with _ | ⟨b, t⟩
      · exfalso
        simp only [DecodeRuneInString, RuneSelf, ha, if_false] at h
        split at h
        · simp [isSpace_runeError] at h
        · split at h <;> simp [isSpace_runeError] at h
      · by_cases hb : b < acceptLo a ∨ acceptHi a < b
        · exfalso
          simp only [DecodeRuneInString, RuneSelf, ha, if_false, hb, if_true] at h
          split at h
          · simp [isSpace_runeError] at h
          · split at h <;> simp [isSpace_runeError] at h
        · have hb80 : 0x80 ≤ b := by omega
          have hl2 : ∀ v : List Nat, ¬ (v.length + 1 + 1 < 2) := fun v => by omega
          have hl3 : ∀ v : List Nat, ¬ (v.length + 1 + 1 + 1 < 3) := fun v => by omega
          have hl4 : ∀ v : List Nat, ¬ (v.length + 1 + 1 + 1 + 1 < 4) := fun v => by omega
          rcases leadSize_cases a with h0 | h2 | h3 | h4
          · exfalso
            simp [DecodeRuneInString, RuneSelf, ha, h0, isSpace_runeError] at h
          · left
            refine ⟨a, b, t, rfl, leadSize_lead a (by omega), ⟨hb80, by omega⟩, ?_, ?_⟩
            · simp [DecodeRuneInString, RuneSelf, ha, h2, hb, hl2]
            · intro u
              simp [DecodeRuneInString, RuneSelf, ha, h2, hb, hl2]
          · right
            rcases t with _ | ⟨c, t⟩
            · exfalso
              simp [DecodeRuneInString, RuneSelf, ha, h3, isSpace_runeError] at h
            · by_cases hc : c < 0x80 ∨ 0xBF < c
              · exfalso
                simp [DecodeRuneInString, RuneSelf, ha, h3, hb, hc, isSpace_runeError] at h
              · refine ⟨a, b, c, t, rfl, leadSize_lead a (by omega), ⟨hb80, by omega⟩,
                  ⟨by omega, by omega⟩, ?_, ?_⟩
                · simp [DecodeRuneInString, RuneSelf, ha, h3, hb, hc, hl3]
                · intro u
                  simp [DecodeRuneInString, RuneSelf, ha, h3, hb, hc, hl3]
          · exfalso
            have ha4 : 0xF0 ≤ a ∧ a ≤ 0xF4 := by
              unfold leadSize at h4; split_ifs at h4 <;> omega
            rcases t with _ | ⟨c, t⟩
            · simp [DecodeRuneInString, RuneSelf, ha, h4, isSpace_runeError] at h
            · rcases t with _ | ⟨d, t⟩
              · simp [DecodeRuneInString, RuneSelf, ha, h4, isSpace_runeError] at h
              · have hb' : 0x90 ≤ b ∨ 0xF1 ≤ a := by
                  unfold acceptLo at hb; split_ifs at hb <;> omega
                have hval : 0x10000 ≤ a % 8 * 262144 + b % 64 * 4096 + c % 64 * 64 + d % 64 := by
                  omega
                by_cases hc : c < 0x80 ∨ 0xBF < c
                · simp [DecodeRuneInString, RuneSelf, ha, h4, hb, hc, isSpace_runeError] at h
                · by_cases hd : d < 0x80 ∨ 0xBF < d
                  · simp [DecodeRuneInString, RuneSelf, ha, h4, hb, hc, hd, isSpace_runeError] at h
                  · simp only [DecodeRuneInString, RuneSelf, ha, h4, hb, hc, hd, if_false,
                      List.length_cons, hl4, Nat.reduceLeDiff, OfNat.ofNat_ne_zero] at h
                    unfold IsSpace at h
                    simp at h
                    omega


theorem decode_size_pos (s : GoString) (h : s ≠ []) : 1 ≤ (DecodeRuneInString s).2 := by
  rcases s with _ | ⟨a, t⟩
  · exact absurd rfl h
  · simp only [DecodeRuneInString]
    repeat' split
    all_goals simp

theorem decode_nil : DecodeRuneInString [] = (RuneError, 0) := rfl

theorem decode_space_ne_nil (s : GoString) (h : IsSpace (DecodeRuneInString s).1 = true) :
    s ≠ [] := by
  rintro rfl
  simp [decode_nil, isSpace_runeError] at h

theorem decode_space_size (s : GoString) (h : IsSpace (DecodeRuneInString s).1 = true) :
    1 ≤ (DecodeRuneInString s).2 ∧ (DecodeRuneInString s).2 ≤ s.length := by
  rcases decode_space_cases s h with ⟨a, t, rfl, _, he⟩ | ⟨a, b, t, rfl, _, _, he, _⟩ |
    ⟨a, b, c, t, rfl, _, _, _, he, _⟩
  · rw [he]; simp
  · rw [he]; simp
  · rw [he]; simp

/-- A white-space rune at the start of a string is still there when the string is extended. -/
theorem decode_space_append (p u : GoString) (h : IsSpace (DecodeRuneInString p).1 = true) :
    DecodeRuneInString (p ++ u) = DecodeRuneInString p := by
  rcases decode_space_cases p h with ⟨a, t, rfl, ha, he⟩ | ⟨a, b, t, rfl, _, _, _, he⟩ |
    ⟨a, b, c, t, rfl, _, _, _, _, he⟩
  · rw [he]; simp [DecodeRuneInString, RuneSelf, ha]
  · exact he (t ++ u)
  · exact he (t ++ u)

/-- A white-space rune at the start of a string is decoded from its own bytes alone. -/
theorem decode_space_take (s : GoString) (h : IsSpace (DecodeRuneInString s).1 = true) :
    DecodeRuneInString (s.take (DecodeRuneInString s).2) = DecodeRuneInString s := by
  rcases decode_space_cases s h with ⟨a, t, rfl, ha, he⟩ | ⟨a, b, t, rfl, _, _, hs, he⟩ |
    ⟨a, b, c, t, rfl, _, _, _, hs, he⟩
  · rw [he]; simp [DecodeRuneInString, RuneSelf, ha]
  · rw [hs]; exact he []
  · rw [hs]; exact he []

theorem drop_length_sub_one (s : GoString) (h : s ≠ []) :
    s.drop (s.length - 1) = [s.getD (s.length - 1) 0] := by
  induction s with
  | nil => exact absurd rfl h
  | cons a t ih =>
    rcases t with _ | ⟨b, t⟩
    · simp
    · have := ih (by simp)
      simp only [List.length_cons, Nat.add_sub_cancel] at this ⊢
      rw [List.drop_succ_cons, this]
      simp

/-- A white-space rune at the end of a string: its width is between 1 and the length, and it
is the rune decoded from the last `width` bytes. -/
theorem decodeLast_space (s : GoString) (h : IsSpace (DecodeLastRuneInString s).1 = true) :
    1 ≤ (DecodeLastRuneInString s).2 ∧ (DecodeLastRuneInString s).2 ≤ s.length ∧
    DecodeRuneInString (s.drop (s.length - (DecodeLastRuneInString s).2)) =
      DecodeLastRuneInString s := by
  unfold DecodeLastRuneInString at h ⊢
  simp only at h ⊢
  by_cases h0 : s.length = 0
  · simp [h0, isSpace_runeError] at h
  · have hne : s ≠ [] := by rintro rfl; simp at h0
    simp only [h0, if_false] at h ⊢
    by_cases h1 : s.getD (s.length - 1) 0 < RuneSelf
    · simp only [h1, if_true] at h ⊢
      refine ⟨le_refl _, by omega, ?_⟩
      rw [drop_length_sub_one s hne]
      generalize s.getD (s.length - 1) 0 = r at h1
      simp only [DecodeRuneInString, h1, if_true]
    · simp only [h1, if_false] at h ⊢
      split at h
      · simp [isSpace_runeError] at h
      · rename_i hst
        simp only [hst, if_false] at h ⊢
        have hsp := decode_space_size _ h
        push_neg at hst
        refine ⟨hsp.1, by omega, ?_⟩
        congr 2
        omega


/-! ### The trimming loops -/

theorem trimLeftLoop_suffix (fuel : Nat) (s : GoString) : trimLeftLoop fuel s <:+ s := by
  induction fuel generalizing s with
  | zero => exact List.suffix_refl s
  | succ n ih =>
    unfold trimLeftLoop
    split_ifs
    · exact List.suffix_refl s
    · exact (ih _).trans (List.drop_suffix _ s)
    · exact List.suffix_refl s

theorem trimLeftLoop_fix (fuel : Nat) (s : GoString)
    (h : IsSpace (DecodeRuneInString s).1 = false) : trimLeftLoop fuel s = s := by
  cases fuel with
  | zero => rfl
  | succ n => unfold trimLeftLoop; simp [h]

theorem trimLeftLoop_done (fuel : Nat) (s : GoString) (hf : s.length ≤ fuel) :
    IsSpace (DecodeRuneInString (trimLeftLoop fuel s)).1 = false := by
  induction fuel generalizing s with
  | zero =>
    have : s = [] := List.length_eq_zero.mp (by omega)
    subst this
    simp [trimLeftLoop, decode_nil, isSpace_runeError]
  | succ n ih =>
    unfold trimLeftLoop
    split_ifs with h1 h2
    · subst h1; simp [decode_nil, isSpace_runeError]
    · apply ih
      have := decode_space_size s h2
      simp only [List.length_drop]
      omega
    · simpa using h2

theorem trimRightLoop_isPrefix (fuel : Nat) (s : GoString) : trimRightLoop fuel s <+: s := by
  induction fuel generalizing s with
  | zero => exact List.prefix_refl s
  | succ n ih =>
    unfold trimRightLoop
    split_ifs
    · exact List.prefix_refl s
    · exact (ih _).trans (List.take_prefix _ s)
    · exact List.prefix_refl s

theorem trimRightLoop_fix (fuel : Nat) (s : GoString)
    (h : IsSpace (DecodeLastRuneInString s).1 = false) : trimRightLoop fuel s = s := by
  cases fuel with
  | zero => rfl
  | succ n => unfold trimRightLoop; simp [h]

theorem decodeLast_nil : DecodeLastRuneInString [] = (RuneError, 0) := rfl

theorem trimRightLoop_done (fuel : Nat) (s : GoString) (hf : s.length ≤ fuel) :
    IsSpace (DecodeLastRuneInString (trimRightLoop fuel s)).1 = false := by
  induction fuel generalizing s with
  | zero =>
    have : s = [] := List.length_eq_zero.mp (by omega)
    subst this
    simp [trimRightLoop, decodeLast_nil, isSpace_runeError]
  | succ n ih =>
    unfold trimRightLoop
    split_ifs with h1 h2
    · subst h1; simp [decodeLast_nil, isSpace_runeError]
    · apply ih
      have := decodeLast_space s h2
      simp only [List.length_take]
      omega
    · simpa using h2

/-- A prefix of a string that does not begin with white space does not begin with it either. -/
theorem decode_prefix_not_space (p s : GoString) (hp : p <+: s)
    (h : IsSpace (DecodeRuneInString s).1 = false) :
    IsSpace (DecodeRuneInString p).1 = false := by
  by_contra hc
  have hc' : IsSpace (DecodeRuneInString p).1 = true := by simpa using hc
  obtain ⟨u, rfl⟩ := hp
  rw [decode_space_append p u hc'] at h
  simp [hc'] at h

theorem trimRightLoop_keeps_start (fuel : Nat) (s : GoString)
    (h : IsSpace (DecodeRuneInString s).1 = false) :
    IsSpace (DecodeRuneInString (trimRightLoop fuel s)).1 = false :=
  decode_prefix_not_space _ s (trimRightLoop_isPrefix fuel s) h

/-- Trimming on the right leaves a non-empty string that does not begin with white space
non-empty. -/
theorem trimRightLoop_ne_nil (fuel : Nat) (s : GoString) (hne : s ≠ [])
    (h : IsSpace (DecodeRuneInString s).1 = false) : trimRightLoop fuel s ≠ [] := by
  induction fuel generalizing s with
  | zero => exact hne
  | succ n ih =>
    unfold trimRightLoop
    split_ifs with h1 h2
    · exact hne
    · have hl := decodeLast_space s h2
      have hlt : (DecodeLastRuneInString s).2 < s.length := by
        by_contra hge
        have he : s.length - (DecodeLastRuneInString s).2 = 0 := by omega
        rw [he, List.drop_zero] at hl
        rw [hl.2.2, h2] at h
        exact absurd h (by decide)
      apply ih
      · intro hnil
        have := congrArg List.length hnil
        simp only [List.length_take, List.length_nil] at this
        omega
      · exact decode_prefix_not_space _ s (List.take_prefix _ s) h
    · exact hne

theorem trimSpace_begin (s : GoString) : IsSpace (DecodeRuneInString (TrimSpace s)).1 = false :=
  trimRightLoop_keeps_start _ _ (trimLeftLoop_done _ s (le_refl _))

theorem trimSpace_end (s : GoString) : IsSpace (DecodeLastRuneInString (TrimSpace s)).1 = false :=
  trimRightLoop_done _ _ (le_refl _)

theorem trimSpace_fix (s : GoString) (hb : IsSpace (DecodeRuneInString s).1 = false)
    (he : IsSpace (DecodeLastRuneInString s).1 = false) : TrimSpace s = s := by
  unfold TrimSpace TrimLeftSpace TrimRightSpace
  rw [trimLeftLoop_fix _ s hb, trimRightLoop_fix _ s he]

theorem trimSpace_isInfix (s : GoString) : TrimSpace s <:+: s :=
  (trimRightLoop_isPrefix _ _).isInfix.trans (trimLeftLoop_suffix _ s).isInfix

theorem trimSpace_idem (s : GoString) : TrimSpace (TrimSpace s) = TrimSpace s :=
  trimSpace_fix _ (trimSpace_begin s) (trimSpace_end s)


/-! ### The replacement of `\s+` -/

theorem replace_cons_space (b : Nat) (rest : GoString) (h : isReSpace b = true) :
    replaceSpaceRuns false (b :: rest) = 0x20 :: replaceSpaceRuns true rest := by
  simp [replaceSpaceRuns, h]

theorem replace_cons_run (b : Nat) (rest : GoString) (h : isReSpace b = true) :
    replaceSpaceRuns true (b :: rest) = replaceSpaceRuns true rest := by
  simp [replaceSpaceRuns, h]

theorem replace_cons_other (f : Bool) (b : Nat) (rest : GoString) (h : isReSpace b = false) :
    replaceSpaceRuns f (b :: rest) = b :: replaceSpaceRuns false rest := by
  simp [replaceSpaceRuns, h]

theorem singleSpaces_replace (f : Bool) (s : GoString) :
    singleSpaces f (replaceSpaceRuns f s) = true := by
  induction s generalizing f with
  | nil => simp [replaceSpaceRuns, singleSpaces]
  | cons b rest ih =>
    cases hb : isReSpace b
    · rw [replace_cons_other f b rest hb]
      simp [singleSpaces, hb, ih]
    · cases f
      · rw [replace_cons_space b rest hb]
        have : isReSpace 0x20 = true := by decide
        simp [singleSpaces, this, ih]
      · rw [replace_cons_run b rest hb]
        exact ih true

theorem singleSpaces_weaken (f : Bool) (s : GoString) (h : singleSpaces f s = true) :
    singleSpaces false s = true := by
  cases s with
  | nil => simp [singleSpaces]
  | cons b rest =>
    unfold singleSpaces at h ⊢
    split_ifs at h ⊢ with hb
    · simp at h ⊢; exact ⟨h.1.1, h.2⟩
    · exact h

theorem singleSpaces_fix (f : Bool) (s : GoString) (h : singleSpaces f s = true) :
    replaceSpaceRuns f s = s := by
  induction s generalizing f with
  | nil => simp [replaceSpaceRuns]
  | cons b rest ih =>
    unfold singleSpaces at h
    unfold replaceSpaceRuns
    split_ifs at h ⊢ with hb hf
    · simp [hf] at h
    · simp at h
      rw [ih true h.2, h.1.1]
    · rw [ih false h]

theorem singleSpaces_of_isSuffix (f : Bool) (t s : GoString) (hts : t <:+ s)
    (h : singleSpaces f s = true) : singleSpaces false t = true := by
  obtain ⟨u, rfl⟩ := hts
  induction u generalizing f with
  | nil => exact singleSpaces_weaken f _ h
  | cons b rest ih =>
    rw [List.cons_append] at h
    unfold singleSpaces at h
    split_ifs at h with hb
    · simp at h; exact ih true h.2
    · exact ih false h

theorem singleSpaces_of_isPrefix (f : Bool) (p s : GoString) (hps : p <+: s)
    (h : singleSpaces f s = true) : singleSpaces f p = true := by
  obtain ⟨u, rfl⟩ := hps
  induction p generalizing f with
  | nil => simp [singleSpaces]
  | cons b rest ih =>
    rw [List.cons_append] at h
    unfold singleSpaces at h ⊢
    split_ifs at h ⊢ with hb
    · simp at h ⊢; exact ⟨h.1, ih true h.2⟩
    · exact ih false h

theorem singleSpaces_of_isInfix (t s : GoString) (hts : t <:+: s)
    (h : singleSpaces false s = true) : singleSpaces false t = true := by
  obtain ⟨u, v, rfl⟩ := hts
  have h1 : singleSpaces false (u ++ t) = true :=
    singleSpaces_of_isPrefix false (u ++ t) (u ++ t ++ v) (List.prefix_append _ _) h
  exact singleSpaces_of_isSuffix false t (u ++ t) (List.suffix_append _ _) h1

theorem singleSpaces_mem (f : Bool) (s : GoString) (h : singleSpaces f s = true) (b : Nat)
    (hb : b ∈ s) (hs : isReSpace b = true) : b = 0x20 := by
  induction s generalizing f with
  | nil => simp at hb
  | cons a rest ih =>
    unfold singleSpaces at h
    rcases List.mem_cons.mp hb with rfl | hmem
    · simp [hs] at h; exact h.1.1
    · split_ifs at h with ha
      · simp at h; exact ih true h.2 hmem
      · exact ih false h hmem

theorem singleSpaces_no_double (s : GoString) (h : singleSpaces false s = true) :
    ¬ [0x20, 0x20] <:+: s := by
  intro hin
  have := singleSpaces_of_isInfix _ s hin h
  revert this
  decide

theorem replaceSpaceRuns_ne_nil (s : GoString) (h : s ≠ []) : replaceSpaceRuns false s ≠ [] := by
  cases s with
  | nil => exact absurd rfl h
  | cons b rest =>
    cases hb : isReSpace b
    · rw [replace_cons_other false b rest hb]; simp
    · rw [replace_cons_space b rest hb]; simp

theorem isReSpace_lt (b : Nat) (h : isReSpace b = true) : b < 0x80 ∧ IsSpace b = true := by
  unfold isReSpace at h
  simp at h
  rcases h with (((h | h) | h) | h) | h <;> subst h <;> decide

theorem replaceSpaceRuns_head (t : GoString) (a : Nat) (x : GoString)
    (h : replaceSpaceRuns false t = a :: x) (ha : 0x80 ≤ a) :
    ∃ rest, t = a :: rest ∧ x = replaceSpaceRuns false rest := by
  cases t with
  | nil => simp [replaceSpaceRuns] at h
  | cons b rest =>
    cases hb : isReSpace b
    · rw [replace_cons_other false b rest hb] at h
      simp at h
      exact ⟨rest, by rw [h.1], h.2.symm⟩
    · rw [replace_cons_space b rest hb] at h
      simp at h
      omega

/-- The replacement of `\s+` does not put white space at the start of a string that has
none there. -/
theorem replace_begin (t : GoString)
    (h : IsSpace (DecodeRuneInString (ReplaceAllSpaceRuns t)).1 = true) :
    IsSpace (DecodeRuneInString t).1 = true := by
  unfold ReplaceAllSpaceRuns at h
  rcases decode_space_cases _ h with ⟨a, x, hc, ha, he⟩ | ⟨a, b, x, hc, ha, hb, _, he⟩ |
    ⟨a, b, c, x, hc, ha, hb, hc3, _, he⟩
  · rw [he] at h
    cases t with
    | nil => simp [replaceSpaceRuns] at hc
    | cons a0 rest =>
      cases h0 : isReSpace a0
      · rw [replace_cons_other false a0 rest h0] at hc
        simp at hc
        rw [hc.1]
        simpa [DecodeRuneInString, RuneSelf, ha] using h
      · have := isReSpace_lt a0 h0
        simp [DecodeRuneInString, RuneSelf, this.1, this.2]
  · obtain ⟨r1, rfl, hx⟩ := replaceSpaceRuns_head t a _ hc (by omega)
    obtain ⟨r2, rfl, _⟩ := replaceSpaceRuns_head r1 b _ hx.symm hb.1
    rw [he r2]; exact h
  · obtain ⟨r1, rfl, hx⟩ := replaceSpaceRuns_head t a _ hc (by omega)
    obtain ⟨r2, rfl, hx2⟩ := replaceSpaceRuns_head r1 b _ hx.symm hb.1
    obtain ⟨r3, rfl, _⟩ := replaceSpaceRuns_head r2 c _ hx2.symm hc3.1
    rw [he r3]; exact h

/-- The normalisation of a non-empty text that does not begin with white space is non-empty. -/
theorem cleanText_ne_nil (t : GoString) (hne : t ≠ [])
    (h : IsSpace (DecodeRuneInString t).1 = false) : cleanText t ≠ [] := by
  have hc : IsSpace (DecodeRuneInString (ReplaceAllSpaceRuns t)).1 = false := by
    by_contra hc
    have := replace_begin t (by simpa using hc)
    rw [this] at h
    exact absurd h (by decide)
  unfold cleanText TrimSpace TrimLeftSpace TrimRightSpace
  simp only
  rw [trimLeftLoop_fix _ _ hc]
  exact trimRightLoop_ne_nil _ _ (replaceSpaceRuns_ne_nil t hne) hc

theorem cleanText_singleSpaces (x : GoString) : singleSpaces false (cleanText x) = true :=
  singleSpaces_of_isInfix _ _ (trimSpace_isInfix _) (singleSpaces_replace false x)

theorem cleanText_idem (x : GoString) : cleanText (cleanText x) = cleanText x := by
  have h1 : ReplaceAllSpaceRuns (cleanText x) = cleanText x :=
    singleSpaces_fix false _ (cleanText_singleSpaces x)
  show TrimSpace (ReplaceAllSpaceRuns (cleanText x)) = cleanText x
  rw [h1]
  exact trimSpace_idem _

/-! ### Escaping and unescaping -/

theorem upperhex_spec (n : Nat) (h : n < 16) :
    ishex (upperhex n) = true ∧ unhex (upperhex n) = n ∧ isAlnum (upperhex n) = true := by
  interval_cases n <;> decide

theorem shouldEscape_query_false (c : Nat) (h : shouldEscape c .encodeQueryComponent = false) :
    isAlnum c = true ∨ c ∈ [0x2D, 0x5F, 0x2E, 0x7E] := by
  unfold shouldEscape at h
  by_cases ha : isAlnum c = true
  · exact Or.inl ha
  · right
    by_contra hm
    simp [ha, hm] at h

theorem unreserved_ne (c : Nat) (h : isAlnum c = true ∨ c ∈ [0x2D, 0x5F, 0x2E, 0x7E]) :
    c ≠ 0x25 ∧ c ≠ 0x2B := by
  constructor <;> rintro rfl <;> revert h <;> decide

theorem unescape_query_plus (rest : GoString) :
    unescape .encodeQueryComponent (0x2B :: rest) =
      (unescape .encodeQueryComponent rest).map (fun t => 0x20 :: t) := by
  rcases rest with _ | ⟨a, _ | ⟨b, r⟩⟩ <;> simp [unescape]

theorem unescape_query_other (c : Nat) (rest : GoString) (h1 : c ≠ 0x25) (h2 : c ≠ 0x2B) :
    unescape .encodeQueryComponent (c :: rest) =
      (unescape .encodeQueryComponent rest).map (fun t => c :: t) := by
  rcases rest with _ | ⟨a, _ | ⟨b, r⟩⟩ <;> simp [unescape, h1, h2]

theorem unescape_query_hex (h1 h2 : Nat) (rest : GoString) (hh1 : ishex h1 = true)
    (hh2 : ishex h2 = true) :
    unescape .encodeQueryComponent (0x25 :: h1 :: h2 :: rest) =
      (unescape .encodeQueryComponent rest).map (fun t => (unhex h1 * 16 + unhex h2) :: t) := by
  rw [unescape]; simp [hh1, hh2]

/-- Unescaping the query-escaped form of a string gives the string back. -/
theorem queryUnescape_queryEscape (q : GoString) (hq : IsBytes q) :
    QueryUnescape (QueryEscape q) = some q := by
  unfold QueryUnescape QueryEscape
  induction q with
  | nil => rfl
  | cons c rest ih =>
    have hc : c < 256 := hq c (List.mem_cons_self _ _)
    have ih := ih (fun b hb => hq b (List.mem_cons_of_mem _ hb))
    unfold escape
    by_cases h20 : c = 0x20
    · subst h20
      simp [unescape_query_plus, ih]
    · by_cases hs : shouldEscape c .encodeQueryComponent = true
      · have hhi := upperhex_spec (c / 16) (by omega)
        have hlo := upperhex_spec (c % 16) (by omega)
        have : c / 16 * 16 + c % 16 = c := by omega
        simp [h20, hs, unescape_query_hex _ _ _ hhi.1 hlo.1, ih, hhi.2.1, hlo.2.1, this]
      · have hs' : shouldEscape c .encodeQueryComponent = false := by simpa using hs
        have hne := unreserved_ne c (shouldEscape_query_false c hs')
        simp [h20, hs', unescape_query_other c _ hne.1 hne.2, ih]

/-! ### Parsing the search URL -/

theorem cut_not_mem (sep : Nat) (p : GoString) (h : sep ∉ p) : Cut sep p = (p, [], false) := by
  induction p with
  | nil => rfl
  | cons c rest ih =>
    have hc : c ≠ sep := fun e => h (e ▸ List.mem_cons_self _ _)
    have ih := ih (fun hm => h (List.mem_cons_of_mem _ hm))
    simp [Cut, hc, ih]

theorem cut_append_sep (sep : Nat) (p r : GoString) (h : sep ∉ p) :
    Cut sep (p ++ sep :: r) = (p, r, true) := by
  induction p with
  | nil => simp [Cut]
  | cons c rest ih =>
    have hc : c ≠ sep := fun e => h (e ▸ List.mem_cons_self _ _)
    have ih := ih (fun hm => h (List.mem_cons_of_mem _ hm))
    simp [Cut, hc, ih]

/-- The bytes that `QueryEscape` writes: letters, digits, `- _ . ~`, `+` and `%`. -/
theorem queryEscape_bytes (q : GoString) (hq : IsBytes q) :
    ∀ b ∈ QueryEscape q, isAlnum b = true ∨ b ∈ [0x2D, 0x5F, 0x2E, 0x7E, 0x2B, 0x25] := by
  unfold QueryEscape
  induction q with
  | nil => simp [escape]
  | cons c rest ih =>
    have hc : c < 256 := hq c (List.mem_cons_self _ _)
    have ih := ih (fun b hb => hq b (List.mem_cons_of_mem _ hb))
    intro b hb
    unfold escape at hb
    by_cases h20 : c = 0x20
    · simp only [h20, true_and, if_true, List.mem_cons] at hb
      rcases hb with rfl | hb
      · decide
      · exact ih b hb
    · by_cases hs : shouldEscape c .encodeQueryComponent = true
      · simp only [h20, false_and, if_false, hs, if_true, List.mem_cons] at hb
        rcases hb with rfl | rfl | rfl | hb
        · decide
        · exact Or.inl (upperhex_spec (c / 16) (by omega)).2.2
        · exact Or.inl (upperhex_spec (c % 16) (by omega)).2.2
        · exact ih b hb
      · have hs' : shouldEscape c .encodeQueryComponent = false := by simpa using hs
        simp only [h20, false_and, if_false, hs', Bool.false_eq_true, List.mem_cons] at hb
        rcases hb with rfl | hb
        · rcases shouldEscape_query_false b hs' with h | h
          · exact Or.inl h
          · right
            simp only [List.mem_cons, List.mem_singleton, List.not_mem_nil, or_false] at h ⊢
            omega
        · exact ih b hb

theorem queryEscape_not_mem (q : GoString) (hq : IsBytes q) (b : Nat)
    (hb : ¬ (isAlnum b = true ∨ b ∈ [0x2D, 0x5F, 0x2E, 0x7E, 0x2B, 0x25])) :
    b ∉ QueryEscape q :=
  fun hm => hb (queryEscape_bytes q hq b hm)

theorem getScheme_https (r : GoString) : getScheme (lit "https:" ++ r) = some (lit "https", r) := by
  rfl

theorem parseHierarchy_search (rawQuery : GoString) :
    parseHierarchy (lit "https") (lit "//duckduckgo.com/html/") false rawQuery =
      some { Scheme := lit "https", Host := lit "duckduckgo.com", Path := lit "/html/",
             RawQuery := rawQuery } := by
  rfl

theorem parseQueryLoop_nil (fuel : Nat) (m : Values) : parseQueryLoop fuel [] m = m := by
  cases fuel <;> simp [parseQueryLoop]

/-- One turn of the query loop on a well-formed piece `key=value` followed by `&`. -/
theorem parseQueryLoop_piece (fuel : Nat) (k v rest : GoString) (m : Values) (k1 v1 : GoString)
    (hk1 : 0x26 ∉ k ∧ 0x3B ∉ k ∧ 0x3D ∉ k) (hv : 0x26 ∉ v ∧ 0x3B ∉ v)
    (huk : QueryUnescape k = some k1) (huv : QueryUnescape v = some v1) :
    parseQueryLoop (fuel + 1) (k ++ 0x3D :: v ++ 0x26 :: rest) m =
      parseQueryLoop fuel rest (Values.Add m k1 v1) := by
  have hcut : Cut 0x26 (k ++ 0x3D :: v ++ 0x26 :: rest) = (k ++ 0x3D :: v, rest, true) := by
    apply cut_append_sep
    simp [hk1.1, hv.1]
  have hcut2 : Cut 0x3D (k ++ 0x3D :: v) = (k, v, true) := cut_append_sep _ _ _ hk1.2.2
  have hne : k ++ 0x3D :: v ++ 0x26 :: rest ≠ [] := by simp
  have hsemi : 0x3B ∉ k ++ 0x3D :: v := by simp [hk1.2.1, hv.2]
  have hne2 : k ++ 0x3D :: v ≠ [] := by simp
  rw [parseQueryLoop]
  simp only [hne, if_false, hcut, hcut2, hsemi, hne2, huk, huv]

/-- The last turn of the query loop, on a well-formed piece `key=value` that ends the query. -/
theorem parseQueryLoop_last (fuel : Nat) (k v : GoString) (m : Values) (k1 v1 : GoString)
    (hk1 : 0x26 ∉ k ∧ 0x3B ∉ k ∧ 0x3D ∉ k) (hv : 0x26 ∉ v ∧ 0x3B ∉ v)
    (huk : QueryUnescape k = some k1) (huv : QueryUnescape v = some v1) :
    parseQueryLoop (fuel + 1) (k ++ 0x3D :: v) m = Values.Add m k1 v1 := by
  have hcut : Cut 0x26 (k ++ 0x3D :: v) = (k ++ 0x3D :: v, [], false) := by
    apply cut_not_mem
    simp [hk1.1, hv.1]
  have hcut2 : Cut 0x3D (k ++ 0x3D :: v) = (k, v, true) := cut_append_sep _ _ _ hk1.2.2
  have hne : k ++ 0x3D :: v ≠ [] := by simp
  have hsemi : 0x3B ∉ k ++ 0x3D :: v := by simp [hk1.2.1, hv.2]
  rw [parseQueryLoop]
  simp only [hne, if_false, hcut, hcut2, hsemi, huk, huv, parseQueryLoop_nil]

/-- The query of the search URL parses to its three parameters. -/
theorem parseQuery_search (q : GoString) (hq : IsBytes q) :
    ParseQuery (lit "ia=web&q=" ++ QueryEscape q ++ lit "&t=h_") =
      [(lit "ia", [lit "web"]), (lit "q", [q]), (lit "t", [lit "h_"])] := by
  have hamp := queryEscape_not_mem q hq 0x26 (by decide)
  have hsemi := queryEscape_not_mem q hq 0x3B (by decide)
  have hrt := queryUnescape_queryEscape q hq
  have hform : lit "ia=web&q=" ++ QueryEscape q ++ lit "&t=h_" =
      lit "ia" ++ 0x3D :: lit "web" ++ 0x26 :: (lit "q" ++ 0x3D :: QueryEscape q ++ 0x26 ::
        (lit "t" ++ 0x3D :: lit "h_")) := by
    simp [lit]
  have hlen : (lit "ia=web&q=" ++ QueryEscape q ++ lit "&t=h_").length =
      (QueryEscape q).length + 11 + 1 + 1 + 1 := by
    simp [lit]
  unfold ParseQuery
  rw [hlen, hform]
  rw [parseQueryLoop_piece _ (lit "ia") (lit "web") _ _ (lit "ia") (lit "web")
    (by decide) (by decide) (by decide) (by decide)]
  rw [parseQueryLoop_piece _ (lit "q") (QueryEscape q) _ _ (lit "q") q
    (by decide) ⟨hamp, hsemi⟩ (by decide) hrt]
  rw [parseQueryLoop_last _ (lit "t") (lit "h_") _ (lit "t") (lit "h_")
    (by decide) (by decide) (by decide) (by decide)]
  simp [Values.Add, lit]

/-- The search URL parses, and its query is the encoded parameters. -/
theorem parse_search (q : GoString) (hq : IsBytes q) :
    Parse (lit "https://duckduckgo.com/html/?ia=web&q=" ++ QueryEscape q ++ lit "&t=h_") =
      some { Scheme := lit "https", Host := lit "duckduckgo.com", Path := lit "/html/",
             RawQuery := lit "ia=web&q=" ++ QueryEscape q ++ lit "&t=h_" } := by
  have hhash := queryEscape_not_mem q hq 0x23 (by decide)
  have hctl : stringContainsCTLByte
      (lit "https://duckduckgo.com/html/?ia=web&q=" ++ QueryEscape q ++ lit "&t=h_") = false := by
    have h1 : stringContainsCTLByte (lit "https://duckduckgo.com/html/?ia=web&q=") = false := by
      decide
    have h2 : stringContainsCTLByte (lit "&t=h_") = false := by decide
    have h3 : stringContainsCTLByte (QueryEscape q) = false := by
      unfold stringContainsCTLByte
      rw [List.any_eq_false]
      intro b hb
      have := queryEscape_bytes q hq b hb
      intro hc
      have hc' : b < 0x20 ∨ b = 0x7F := by simpa using hc
      rcases this with h | h
      · unfold isAlnum at h
        simp at h
        omega
      · simp only [List.mem_cons, List.mem_singleton, List.not_mem_nil, or_false] at h
        omega
    unfold stringContainsCTLByte at h1 h2 h3 ⊢
    simp only [List.any_append, h1, h2, h3, Bool.or_self]
  have hcut : Cut 0x23
      (lit "https://duckduckgo.com/html/?ia=web&q=" ++ QueryEscape q ++ lit "&t=h_") =
      (lit "https://duckduckgo.com/html/?ia=web&q=" ++ QueryEscape q ++ lit "&t=h_", [], false) := by
    apply cut_not_mem
    simp [lit, hhash]
  have hstar : lit "https://duckduckgo.com/html/?ia=web&q=" ++ QueryEscape q ++ lit "&t=h_" ≠
      [0x2A] := by
    simp [lit]
  have hsch : getScheme
      (lit "https://duckduckgo.com/html/?ia=web&q=" ++ QueryEscape q ++ lit "&t=h_") =
      some (lit "https", lit "//duckduckgo.com/html/" ++ 0x3F ::
        (lit "ia=web&q=" ++ QueryEscape q ++ lit "&t=h_")) := by
    rw [← getScheme_https]
    simp [lit]
  have hlow : toLowerASCII (lit "https") = lit "https" := by decide
  have hlast : (lit "//duckduckgo.com/html/" ++ 0x3F ::
      (lit "ia=web&q=" ++ QueryEscape q ++ lit "&t=h_")).getLast? = some 0x5F := by
    rw [show lit "//duckduckgo.com/html/" ++ 0x3F ::
        (lit "ia=web&q=" ++ QueryEscape q ++ lit "&t=h_") =
      (lit "//duckduckgo.com/html/" ++ 0x3F :: (lit "ia=web&q=" ++ QueryEscape q)) ++
        lit "&t=h_" from by simp, List.getLast?_append]
    rfl
  have hcutq : Cut 0x3F (lit "//duckduckgo.com/html/" ++ 0x3F ::
      (lit "ia=web&q=" ++ QueryEscape q ++ lit "&t=h_")) =
      (lit "//duckduckgo.com/html/", lit "ia=web&q=" ++ QueryEscape q ++ lit "&t=h_", true) :=
    cut_append_sep _ _ _ (by decide)
  unfold Parse
  simp only [hcut, parse, hctl, hstar, hsch, hlow, hlast, hcutq]
  simp [parseHierarchy_search]

/-! ### The search URL -/

theorem buildDuckDuckGoURL_shape (q : GoString) :
    buildDuckDuckGoURL q =
      lit "https://duckduckgo.com/html/?ia=web&q=" ++ QueryEscape q ++ lit "&t=h_" := by
  have h1 : lit "https://duckduckgo.com/html/?ia=web&q=" =
      lit "https://duckduckgo.com/html/" ++ lit "?" ++ lit "ia=web&q=" := by decide
  have h2 : QueryEscape (lit "web") = lit "web" := by decide
  have h3 : QueryEscape (lit "h_") = lit "h_" := by decide
  have h4 : QueryEscape (lit "ia") = lit "ia" := by decide
  have h5 : QueryEscape (lit "q") = lit "q" := by decide
  have h6 : QueryEscape (lit "t") = lit "t" := by decide
  have h7 : lit "ia=web&q=" =
      lit "ia" ++ [0x3D] ++ lit "web" ++ [0x26] ++ lit "q" ++ [0x3D] := by decide
  have h8 : lit "&t=h_" = [0x26] ++ lit "t" ++ [0x3D] ++ lit "h_" := by decide
  have hs : sortKeys [lit "q", lit "t", lit "ia"] = [lit "ia", lit "q", lit "t"] := by decide
  have hne : lit "ia" ≠ lit "q" ∧ lit "ia" ≠ lit "t" ∧ lit "q" ≠ lit "t" ∧ lit "q" ≠ lit "ia" ∧
      lit "t" ≠ lit "ia" ∧ lit "t" ≠ lit "q" ∧ lit "ia" ≠ [] := by decide
  obtain ⟨n1, n2, n3, n4, n5, n6, n7⟩ := hne
  rw [h1, h7, h8]
  simp only [buildDuckDuckGoURL, Values.Add, Values.Encode, n1, n2, n3, n4, n5, n6, if_false,
    if_true, List.map, hs, encodeKeys, encodeKey, Values.lookup, h2, h3, h4, h5, h6, List.length,
    List.append_assoc, List.nil_append, List.cons_append, ne_eq, not_true_eq_false,
    not_false_eq_true, List.append_eq_nil, n7, false_and, reduceCtorEq, Nat.add_one_ne_zero]

/-! ### The extraction step -/

theorem title_trimmed (e : ResultElement) : ∃ t, e.title = TrimSpace t := by
  unfold ResultElement.title
  simp only
  split_ifs
  · exact ⟨_, rfl⟩
  · exact ⟨_, rfl⟩

theorem onResult_append (articles : List Article) (e : ResultElement) :
    onResult articles e = articles ++ (candidate e).toList := by
  unfold candidate onResult
  simp only
  split_ifs <;> simp

theorem foldl_onResult (elements : List ResultElement) (articles : List Article) :
    elements.foldl onResult articles = articles ++ elements.filterMap candidate := by
  induction elements generalizing articles with
  | nil => simp
  | cons e rest ih =>
    rw [List.foldl_cons, ih, onResult_append]
    cases h : candidate e <;> simp [List.filterMap_cons, h]

theorem candidate_fields (e : ResultElement) (a : Article) (h : candidate e = some a) :
    a.Title ≠ [] ∧ a.URL ≠ [] := by
  unfold candidate onResult at h
  simp only at h
  split_ifs at h with hc hu
  · simp only [List.nil_append, List.head?_cons, Option.some.injEq] at h
    subst h
    obtain ⟨t, ht⟩ := title_trimmed e
    refine ⟨cleanText_ne_nil _ hc.1 ?_, hc.2⟩
    rw [ht]
    exact trimSpace_begin t
  · simp only [List.nil_append, List.head?_cons, Option.some.injEq] at h
    subst h
    obtain ⟨t, ht⟩ := title_trimmed e
    refine ⟨cleanText_ne_nil _ hc.1 ?_, hu⟩
    rw [ht]
    exact trimSpace_begin t
  · simp at h

theorem searchWithColly_ok (elements : List ResultElement) :
    SearchWithColly elements none = ((elements.filterMap candidate).take 10, none) := by
  unfold SearchWithColly
  simp only [foldl_onResult, List.nil_append]
  split_ifs with h
  · rfl
  · rw [List.take_of_length_le (by omega)]

/-! ### Runs of `\s` -/

theorem replace_run_flag (w v : GoString) (hw : ∀ b ∈ w, isReSpace b = true)
    (hv : ∀ b ∈ v.head?, isReSpace b = false) :
    replaceSpaceRuns true (w ++ v) = replaceSpaceRuns false v := by
  induction w with
  | nil =>
    cases v with
    | nil => rfl
    | cons c rest =>
      have hc : isReSpace c = false := hv c (by simp)
      rw [List.nil_append, replace_cons_other true c rest hc, replace_cons_other false c rest hc]
  | cons b rest ih =>
    rw [List.cons_append, replace_cons_run b _ (hw b (List.mem_cons_self _ _))]
    exact ih (fun x hx => hw x (List.mem_cons_of_mem _ hx))

theorem replace_append (f : Bool) (u r : GoString) (hne : u ≠ [])
    (hu : ∀ b ∈ u.getLast?, isReSpace b = false) :
    replaceSpaceRuns f (u ++ r) = replaceSpaceRuns f u ++ replaceSpaceRuns false r := by
  induction u generalizing f with
  | nil => exact absurd rfl hne
  | cons c rest ih =>
    cases rest with
    | nil =>
      have hc : isReSpace c = false := hu c (by simp)
      rw [List.cons_append, List.nil_append, replace_cons_other f c _ hc,
        replace_cons_other f c _ hc]
      rfl
    | cons d rest2 =>
      have hu' : ∀ b ∈ (d :: rest2).getLast?, isReSpace b = false := by
        intro b hb; apply hu b; simpa [List.getLast?_cons_cons] using hb
      have ih' := fun g => ih g (by simp) hu'
      cases hc : isReSpace c
      · rw [List.cons_append, replace_cons_other f c _ hc, replace_cons_other f c _ hc, ih' false]
        rfl
      · cases f
        · rw [List.cons_append, replace_cons_space c _ hc, replace_cons_space c _ hc, ih' true]
          rfl
        · rw [List.cons_append, replace_cons_run c _ hc, replace_cons_run c _ hc, ih' true]

/-- A maximal run of `\s` bytes is replaced by exactly one space. -/
theorem replace_run (u w v : GoString) (hne : w ≠ []) (hw : ∀ b ∈ w, isReSpace b = true)
    (hu : ∀ b ∈ u.getLast?, isReSpace b = false) (hv : ∀ b ∈ v.head?, isReSpace b = false) :
    ReplaceAllSpaceRuns (u ++ w ++ v) =
      ReplaceAllSpaceRuns u ++ 0x20 :: ReplaceAllSpaceRuns v := by
  unfold ReplaceAllSpaceRuns
  have hwv : replaceSpaceRuns false (w ++ v) = 0x20 :: replaceSpaceRuns false v := by
    cases w with
    | nil => exact absurd rfl hne
    | cons b rest =>
      rw [List.cons_append, replace_cons_space b _ (hw b (List.mem_cons_self _ _))]
      rw [replace_run_flag rest v (fun x hx => hw x (List.mem_cons_of_mem _ hx)) hv]
  rw [List.append_assoc]
  by_cases hu0 : u = []
  · subst hu0
    simp [hwv, replaceSpaceRuns]
  · rw [replace_append false u _ hu0 hu, hwv]

/-! ### What the trimming removes and what the replacement keeps -/

theorem spaceRunes_nil : SpaceRunes [] := ⟨[], rfl, by simp⟩

theorem spaceRunes_cons (e s : GoString) (he : IsSpaceRune e) (hs : SpaceRunes s) :
    SpaceRunes (e ++ s) := by
  obtain ⟨runes, rfl, h⟩ := hs
  refine ⟨e :: runes, by simp, ?_⟩
  intro x hx
  rcases List.mem_cons.mp hx with rfl | hx
  · exact he
  · exact h x hx

theorem spaceRunes_append (a b : GoString) (ha : SpaceRunes a) (hb : SpaceRunes b) :
    SpaceRunes (a ++ b) := by
  obtain ⟨ra, rfl, h1⟩ := ha
  obtain ⟨rb, rfl, h2⟩ := hb
  refine ⟨ra ++ rb, by simp, ?_⟩
  intro x hx
  rcases List.mem_append.mp hx with hx | hx
  · exact h1 x hx
  · exact h2 x hx

theorem spaceRunes_single (e : GoString) (he : IsSpaceRune e) : SpaceRunes e := by
  simpa using spaceRunes_cons e [] he spaceRunes_nil

/-- What the left trimming loop removes is made of white-space runes. -/
theorem trimLeftLoop_split (fuel : Nat) (s : GoString) :
    ∃ l, s = l ++ trimLeftLoop fuel s ∧ SpaceRunes l := by
  induction fuel generalizing s with
  | zero => exact ⟨[], rfl, spaceRunes_nil⟩
  | succ n ih =>
    unfold trimLeftLoop
    split_ifs with h1 h2
    · exact ⟨[], rfl, spaceRunes_nil⟩
    · obtain ⟨l, hl, hsl⟩ := ih (s.drop (DecodeRuneInString s).2)
      have hsz := decode_space_size s h2
      have he : IsSpaceRune (s.take (DecodeRuneInString s).2) := by
        refine ⟨?_, ?_⟩
        · rw [decode_space_take s h2]; exact h2
        · rw [decode_space_take s h2, List.length_take]; omega
      refine ⟨s.take (DecodeRuneInString s).2 ++ l, ?_, spaceRunes_cons _ _ he hsl⟩
      rw [List.append_assoc, ← hl, List.take_append_drop]
    · exact ⟨[], rfl, spaceRunes_nil⟩

/-- What the right trimming loop removes is made of white-space runes. -/
theorem trimRightLoop_split (fuel : Nat) (s : GoString) :
    ∃ r, s = trimRightLoop fuel s ++ r ∧ SpaceRunes r := by
  induction fuel generalizing s with
  | zero => exact ⟨[], by simp [trimRightLoop], spaceRunes_nil⟩
  | succ n ih =>
    unfold trimRightLoop
    split_ifs with h1 h2
    · exact ⟨[], by simp, spaceRunes_nil⟩
    · obtain ⟨r, hr, hsr⟩ := ih (s.take (s.length - (DecodeLastRuneInString s).2))
      have hl := decodeLast_space s h2
      have he : IsSpaceRune (s.drop (s.length - (DecodeLastRuneInString s).2)) := by
        refine ⟨?_, ?_⟩
        · rw [hl.2.2]; exact h2
        · rw [hl.2.2, List.length_drop]; omega
      refine ⟨r ++ s.drop (s.length - (DecodeLastRuneInString s).2), ?_,
        spaceRunes_append _ _ hsr (spaceRunes_single _ he)⟩
      rw [← List.append_assoc, ← hr, List.take_append_drop]
    · exact ⟨[], by simp, spaceRunes_nil⟩

theorem trimSpace_split (s : GoString) :
    ∃ l r, s = l ++ TrimSpace s ++ r ∧ SpaceRunes l ∧ SpaceRunes r := by
  obtain ⟨l, hl, hsl⟩ := trimLeftLoop_split s.length s
  obtain ⟨r, hr, hsr⟩ := trimRightLoop_split (TrimLeftSpace s).length (TrimLeftSpace s)
  refine ⟨l, r, ?_, hsl, hsr⟩
  unfold TrimSpace TrimRightSpace
  rw [List.append_assoc, ← hr]
  exact hl

theorem trimLeftLoop_step (n : Nat) (s : GoString) :
    trimLeftLoop (n + 1) s =
      if s = [] then s
      else if IsSpace (DecodeRuneInString s).1 then
        trimLeftLoop n (s.drop (DecodeRuneInString s).2)
      else s := by
  rw [trimLeftLoop]

theorem trimLeftLoop_succ (fuel : Nat) (s : GoString) (h : s.length ≤ fuel) :
    trimLeftLoop (fuel + 1) s = trimLeftLoop fuel s := by
  induction fuel generalizing s with
  | zero =>
    have : s = [] := List.length_eq_zero.mp (by omega)
    subst this
    simp [trimLeftLoop]
  | succ n ih =>
    rw [trimLeftLoop_step (n + 1) s, trimLeftLoop_step n s]
    split_ifs with h1 h2
    · rfl
    · apply ih
      have := decode_space_size s h2
      simp only [List.length_drop]
      omega
    · rfl

theorem trimLeftLoop_ge (fuel : Nat) (s : GoString) (h : s.length ≤ fuel) :
    trimLeftLoop fuel s = TrimLeftSpace s := by
  unfold TrimLeftSpace
  induction fuel with
  | zero =>
    have : s.length = 0 := by omega
    rw [this]
  | succ n ih =>
    by_cases hn : s.length ≤ n
    · rw [trimLeftLoop_succ n s hn]; exact ih hn
    · have : s.length = n + 1 := by omega
      rw [this]

theorem trimLeft_rune (e s : GoString) (he : IsSpaceRune e) :
    TrimLeftSpace (e ++ s) = TrimLeftSpace s := by
  have hsz := decode_space_size e he.1
  have hne : e ++ s ≠ [] := by
    intro h
    have := congrArg List.length h
    simp only [List.length_append, List.length_nil] at this
    omega
  have hd : DecodeRuneInString (e ++ s) = DecodeRuneInString e := decode_space_append e s he.1
  have hlen : (e ++ s).length = (e.length + s.length - 1) + 1 := by
    simp only [List.length_append]; omega
  unfold TrimLeftSpace
  rw [hlen, trimLeftLoop_step]
  simp only [hne, if_false, hd, he.1, if_true, he.2, List.drop_left]
  exact trimLeftLoop_ge _ s (by omega)

theorem trimLeft_runes (l s : GoString) (hl : SpaceRunes l) :
    TrimLeftSpace (l ++ s) = TrimLeftSpace s := by
  obtain ⟨runes, rfl, h⟩ := hl
  induction runes with
  | nil => simp
  | cons e rest ih =>
    rw [List.flatten_cons, List.append_assoc, trimLeft_rune e _ (h e (List.mem_cons_self _ _))]
    exact ih (fun x hx => h x (List.mem_cons_of_mem _ hx))

theorem spaceRune_shape (e : GoString) (he : IsSpaceRune e) :
    (∃ a, e = [a] ∧ a < 0x80) ∨
    (∃ a b, e = [a, b] ∧ 0xC2 ≤ a ∧ 0x80 ≤ b ∧ b ≤ 0xBF) ∨
    (∃ a b c, e = [a, b, c] ∧ 0xC2 ≤ a ∧ (0x80 ≤ b ∧ b ≤ 0xBF) ∧ 0x80 ≤ c ∧ c ≤ 0xBF) := by
  obtain ⟨h1, h2⟩ := he
  rcases decode_space_cases e h1 with ⟨a, t, rfl, ha, hd⟩ | ⟨a, b, t, rfl, ha, hb, hs, _⟩ |
    ⟨a, b, c, t, rfl, ha, hb, hc, hs, _⟩
  · left
    rw [hd] at h2
    simp only [List.length_cons] at h2
    have : t = [] := List.length_eq_zero.mp (by omega)
    exact ⟨a, by rw [this], ha⟩
  · right; left
    rw [hs] at h2
    simp only [List.length_cons] at h2
    have : t = [] := List.length_eq_zero.mp (by omega)
    exact ⟨a, b, by rw [this], ha, hb.1, hb.2⟩
  · right; right
    rw [hs] at h2
    simp only [List.length_cons] at h2
    have : t = [] := List.length_eq_zero.mp (by omega)
    exact ⟨a, b, c, by rw [this], ha, hb, hc.1, hc.2⟩

/-- A string of white-space runes does not start with a continuation byte. -/
theorem spaceRunes_head (r : GoString) (hr : SpaceRunes r) (h : Nat) (t : GoString)
    (hrt : r = h :: t) : h < 0x80 ∨ 0xC2 ≤ h := by
  obtain ⟨runes, rfl, hall⟩ := hr
  induction runes with
  | nil => simp at hrt
  | cons e rest ih =>
    have he := hall e (List.mem_cons_self _ _)
    rw [List.flatten_cons] at hrt
    rcases spaceRune_shape e he with ⟨a, rfl, ha⟩ | ⟨a, b, rfl, ha, _⟩ | ⟨a, b, c, rfl, ha, _⟩
    · simp only [List.singleton_append, List.cons.injEq] at hrt
      rw [← hrt.1]; exact Or.inl ha
    · simp only [List.cons_append, List.cons.injEq] at hrt
      rw [← hrt.1]; exact Or.inr ha
    · simp only [List.cons_append, List.cons.injEq] at hrt
      rw [← hrt.1]; exact Or.inr ha

/-- A non-empty string that does not begin with white space does not begin with it either when
white-space runes are appended. -/
theorem decode_append_spaceRunes (y r : GoString) (hy : y ≠ [])
    (hb : IsSpace (DecodeRuneInString y).1 = false) (hr : SpaceRunes r) :
    IsSpace (DecodeRuneInString (y ++ r)).1 = false := by
  by_contra hc
  have h : IsSpace (DecodeRuneInString (y ++ r)).1 = true := by simpa using hc
  rcases decode_space_cases _ h with ⟨a, t, hs, ha, hd⟩ | ⟨a, b, t, hs, _, hb2, _, he⟩ |
    ⟨a, b, c, t, hs, _, hb2, hc2, _, he⟩
  · rcases y with _ | ⟨a0, y1⟩
    · exact hy rfl
    · simp only [List.cons_append, List.cons.injEq] at hs
      rw [hd] at h
      have : DecodeRuneInString (a0 :: y1) = (a0, 1) := by
        simp [DecodeRuneInString, RuneSelf, hs.1, ha]
      rw [this, hs.1] at hb
      rw [hb] at h
      exact absurd h (by decide)
  · rcases y with _ | ⟨a0, _ | ⟨b0, y2⟩⟩
    · exact hy rfl
    · simp only [List.cons_append, List.nil_append, List.cons.injEq] at hs
      rcases spaceRunes_head r hr b t hs.2 with h1 | h1 <;> omega
    · simp only [List.cons_append, List.cons.injEq] at hs
      rw [hs.1, hs.2.1, he y2, h] at hb
      exact absurd hb (by decide)
  · rcases y with _ | ⟨a0, _ | ⟨b0, _ | ⟨c0, y3⟩⟩⟩
    · exact hy rfl
    · simp only [List.cons_append, List.nil_append, List.cons.injEq] at hs
      rcases spaceRunes_head r hr b (c :: t) hs.2 with h1 | h1 <;> omega
    · simp only [List.cons_append, List.nil_append, List.cons.injEq] at hs
      rcases spaceRunes_head r hr c t hs.2.2 with h1 | h1 <;> omega
    · simp only [List.cons_append, List.cons.injEq] at hs
      rw [hs.1, hs.2.1, hs.2.2.1, he y3, h] at hb
      exact absurd hb (by decide)

theorem trimRightLoop_step (n : Nat) (s : GoString) :
    trimRightLoop (n + 1) s =
      if s = [] then s
      else if IsSpace (DecodeLastRuneInString s).1 then
        trimRightLoop n (s.take (s.length - (DecodeLastRuneInString s).2))
      else s := by
  rw [trimRightLoop]

theorem trimRightLoop_succ (fuel : Nat) (s : GoString) (h : s.length ≤ fuel) :
    trimRightLoop (fuel + 1) s = trimRightLoop fuel s := by
  induction fuel generalizing s with
  | zero =>
    have : s = [] := List.length_eq_zero.mp (by omega)
    subst this
    simp [trimRightLoop]
  | succ n ih =>
    rw [trimRightLoop_step (n + 1) s, trimRightLoop_step n s]
    split_ifs with h1 h2
    · rfl
    · apply ih
      have := decodeLast_space s h2
      simp only [List.length_take]
      omega
    · rfl

theorem trimRightLoop_ge (fuel : Nat) (s : GoString) (h : s.length ≤ fuel) :
    trimRightLoop fuel s = TrimRightSpace s := by
  unfold TrimRightSpace
  induction fuel with
  | zero =>
    have : s.length = 0 := by omega
    rw [this]
  | succ n ih =>
    by_cases hn : s.length ≤ n
    · rw [trimRightLoop_succ n s hn]; exact ih hn
    · have : s.length = n + 1 := by omega
      rw [this]

theorem runeStart_lead (a : Nat) (h : 0xC2 ≤ a) : RuneStart a = true := by
  unfold RuneStart
  simp
  omega

theorem runeStart_cont (b : Nat) (h1 : 0x80 ≤ b) (h2 : b ≤ 0xBF) : RuneStart b = false := by
  unfold RuneStart
  simp
  omega

theorem getD_append_at (p : GoString) (a : Nat) (t : GoString) :
    (p ++ a :: t).getD p.length 0 = a := by
  induction p with
  | nil => simp
  | cons x xs ih => simpa using ih

/-- The last rune of a string that ends with the encoding of a white-space rune is that rune. -/
theorem decodeLast_append_rune (p e : GoString) (he : IsSpaceRune e) :
    DecodeLastRuneInString (p ++ e) = DecodeRuneInString e := by
  rcases spaceRune_shape e he with ⟨a, rfl, ha⟩ | ⟨a, b, rfl, ha, hb1, hb2⟩ |
    ⟨a, b, c, rfl, ha, hb, hc1, hc2⟩
  · unfold DecodeLastRuneInString
    have h1 : (p ++ [a]).length - 1 = p.length := by simp
    have h0 : (p ++ [a]).length ≠ 0 := by simp
    simp only [h0, if_false, h1, getD_append_at, RuneSelf, ha, if_true]
    simp [DecodeRuneInString, RuneSelf, ha]
  · unfold DecodeLastRuneInString
    have h1 : (p ++ [a, b]).length - 1 = (p ++ [a]).length := by simp
    have h0 : (p ++ [a, b]).length ≠ 0 := by simp
    have hg : (p ++ [a, b]).getD (p ++ [a]).length 0 = b := by
      have := getD_append_at (p ++ [a]) b []
      simpa using this
    have hnb : ¬ b < RuneSelf := by unfold RuneSelf; omega
    have hst : lastRuneStart (p ++ [a, b]) (max (((p ++ [a, b]).length : Int) - 4) 0) 4
        (((p ++ [a, b]).length : Int) - 2) = (p.length : Int) := by
      have hl : (((p ++ [a, b]).length : Int) - 2) = (p.length : Int) := by
        simp
      rw [hl]
      unfold lastRuneStart
      have hlim : ¬ ((p.length : Int) < max (((p ++ [a, b]).length : Int) - 4) 0) := by
        simp only [List.length_append, List.length_cons, List.length_nil, Nat.cast_add,
          Nat.cast_ofNat]
        omega
      simp only [hlim, if_false, Int.toNat_ofNat, getD_append_at, runeStart_lead a ha, if_true]
    simp only [h0, if_false, h1, hg, hnb, hst, Int.toNat_ofNat, List.drop_left]
    have hsz : (DecodeRuneInString [a, b]).2 = 2 := he.2
    simp only [hsz, List.length_append, List.length_cons, List.length_nil, ne_eq,
      not_true_eq_false, if_false]
    exact Prod.ext rfl hsz.symm
  · unfold DecodeLastRuneInString
    have h1 : (p ++ [a, b, c]).length - 1 = (p ++ [a, b]).length := by simp
    have h0 : (p ++ [a, b, c]).length ≠ 0 := by simp
    have hg : (p ++ [a, b, c]).getD (p ++ [a, b]).length 0 = c := by
      have := getD_append_at (p ++ [a, b]) c []
      simpa using this
    have hnc : ¬ c < RuneSelf := by unfold RuneSelf; omega
    have hst : lastRuneStart (p ++ [a, b, c]) (max (((p ++ [a, b, c]).length : Int) - 4) 0) 4
        (((p ++ [a, b, c]).length : Int) - 2) = (p.length : Int) := by
      have hl : (((p ++ [a, b, c]).length : Int) - 2) = ((p ++ [a]).length : Int) := by
        simp only [List.length_append, List.length_cons, List.length_nil, Nat.cast_add,
          Nat.cast_ofNat]
        omega
      rw [hl]
      unfold lastRuneStart
      have hlim : ¬ (((p ++ [a]).length : Int) <
          max (((p ++ [a, b, c]).length : Int) - 4) 0) := by
        simp only [List.length_append, List.length_cons, List.length_nil, Nat.cast_add,
          Nat.cast_ofNat]
        omega
      have hgb : (p ++ [a, b, c]).getD (p ++ [a]).length 0 = b := by
        have := getD_append_at (p ++ [a]) b [c]
        simpa using this
      simp only [hlim, if_false, Int.toNat_ofNat, hgb, runeStart_cont b hb.1 hb.2]
      have hl2 : (((p ++ [a]).length : Int) - 1) = (p.length : Int) := by
        simp
      rw [hl2]
      unfold lastRuneStart
      have hlim2 : ¬ ((p.length : Int) < max (((p ++ [a, b, c]).length : Int) - 4) 0) := by
        simp only [List.length_append, List.length_cons, List.length_nil, Nat.cast_add,
          Nat.cast_ofNat]
        omega
      simp only [hlim2, if_false, Int.toNat_ofNat, getD_append_at, runeStart_lead a ha, if_true,
        Bool.false_eq_true]
    simp only [h0, if_false, h1, hg, hnc, hst, Int.toNat_ofNat, List.drop_left]
    have hsz : (DecodeRuneInString [a, b, c]).2 = 3 := he.2
    simp only [hsz, List.length_append, List.length_cons, List.length_nil, ne_eq,
      not_true_eq_false, if_false]
    exact Prod.ext rfl hsz.symm

theorem trimRight_rune (p e : GoString) (he : IsSpaceRune e) :
    TrimRightSpace (p ++ e) = TrimRightSpace p := by
  have hsz := decode_space_size e he.1
  have hne : p ++ e ≠ [] := by
    intro h
    have := congrArg List.length h
    simp only [List.length_append, List.length_nil] at this
    omega
  have hd : DecodeLastRuneInString (p ++ e) = DecodeRuneInString e :=
    decodeLast_append_rune p e he
  have hlen : (p ++ e).length = (p.length + e.length - 1) + 1 := by
    simp only [List.length_append]; omega
  have htake : (p ++ e).take ((p ++ e).length - e.length) = p := by
    simp
  unfold TrimRightSpace
  rw [hlen, trimRightLoop_step]
  simp only [hne, if_false, hd, he.1, if_true, he.2]
  rw [htake]
  exact trimRightLoop_ge _ p (by omega)

theorem trimRight_runes (p r : GoString) (hr : SpaceRunes r) :
    TrimRightSpace (p ++ r) = TrimRightSpace p := by
  obtain ⟨runes, rfl, h⟩ := hr
  induction runes generalizing p with
  | nil => simp
  | cons e rest ih =>
    rw [List.flatten_cons, ← List.append_assoc,
      ih (p ++ e) (fun x hx => h x (List.mem_cons_of_mem _ hx))]
    exact trimRight_rune p e (h e (List.mem_cons_self _ _))

/-- Trimming is determined by what it leaves: a string between two strings of white-space
runes that neither begins nor ends with white space is the trimmed string. -/
theorem trimSpace_unique (l y r : GoString) (hl : SpaceRunes l) (hr : SpaceRunes r)
    (hb : IsSpace (DecodeRuneInString y).1 = false)
    (he : IsSpace (DecodeLastRuneInString y).1 = false) : TrimSpace (l ++ y ++ r) = y := by
  unfold TrimSpace
  rw [List.append_assoc, trimLeft_runes l _ hl]
  by_cases hy : y = []
  · subst hy
    have h0 : TrimLeftSpace r = [] := by
      have := trimLeft_runes r [] hr
      simpa [TrimLeftSpace, trimLeftLoop] using this
    rw [List.nil_append, h0]
    rfl
  · have h1 : TrimLeftSpace (y ++ r) = y ++ r :=
      trimLeftLoop_fix _ _ (decode_append_spaceRunes y r hy hb hr)
    rw [h1, trimRight_runes y r hr]
    exact trimRightLoop_fix _ _ he

theorem replace_no_space (f : Bool) (x : GoString) (h : ∀ b ∈ x, isReSpace b = false) :
    replaceSpaceRuns f x = x := by
  induction x generalizing f with
  | nil => rfl
  | cons b rest ih =>
    rw [replace_cons_other f b rest (h b (List.mem_cons_self _ _)),
      ih false (fun c hc => h c (List.mem_cons_of_mem _ hc))]

theorem replace_filter (f : Bool) (x : GoString) :
    (replaceSpaceRuns f x).filter (fun b => !isReSpace b) =
      x.filter (fun b => !isReSpace b) := by
  induction x generalizing f with
  | nil => rfl
  | cons b rest ih =>
    cases hb : isReSpace b
    · rw [replace_cons_other f b rest hb]
      simp [List.filter_cons, hb, ih false]
    · have h20 : isReSpace 0x20 = true := by decide
      cases f
      · rw [replace_cons_space b rest hb]
        simp [List.filter_cons, hb, h20, ih true]
      · rw [replace_cons_run b rest hb]
        simp [List.filter_cons, hb, ih true]

/-- The two laws of the replacement (a text without `\s` bytes is kept, a maximal run of `\s`
bytes between two texts becomes one space between their replacements) leave no choice: a
function that has them is the replacement. -/
theorem replace_determined (g : GoString → GoString)
    (hbase : ∀ x : GoString, (∀ b ∈ x, isReSpace b = false) → g x = x)
    (hrun : ∀ u w v : GoString, w ≠ [] → (∀ b ∈ w, isReSpace b = true) →
      (∀ b ∈ u.getLast?, isReSpace b = false) → (∀ b ∈ v.head?, isReSpace b = false) →
      g (u ++ w ++ v) = g u ++ 0x20 :: g v)
    (x : GoString) : g x = ReplaceAllSpaceRuns x := by
  suffices hall : ∀ (n : Nat) (x : GoString), x.length = n → g x = ReplaceAllSpaceRuns x from
    hall x.length x rfl
  intro n
  induction n using Nat.strong_induction_on with
  | _ n ih =>
    intro x hn
    by_cases hx : ∀ b ∈ x, isReSpace b = false
    · rw [hbase x hx]
      exact (replace_no_space false x hx).symm
    · have hu : ∀ b ∈ x.takeWhile (fun b => !isReSpace b), isReSpace b = false := by
        intro b hb
        simpa using List.mem_takeWhile_imp hb
      have hrest : x.dropWhile (fun b => !isReSpace b) ≠ [] := by
        intro h
        rw [List.dropWhile_eq_nil_iff] at h
        exact hx (fun b hb => by simpa using h b hb)
      have hdecomp : x = x.takeWhile (fun b => !isReSpace b) ++
          (x.dropWhile (fun b => !isReSpace b)).takeWhile isReSpace ++
          (x.dropWhile (fun b => !isReSpace b)).dropWhile isReSpace := by
        rw [List.append_assoc, List.takeWhile_append_dropWhile,
          List.takeWhile_append_dropWhile]
      have hw : ∀ b ∈ (x.dropWhile (fun b => !isReSpace b)).takeWhile isReSpace,
          isReSpace b = true := fun b hb => List.mem_takeWhile_imp hb
      have hwne : (x.dropWhile (fun b => !isReSpace b)).takeWhile isReSpace ≠ [] := by
        have hc := List.head_dropWhile_not (fun b => !isReSpace b) x hrest
        rcases hd : x.dropWhile (fun b => !isReSpace b) with _ | ⟨c, rest⟩
        · exact absurd hd hrest
        · simp only [hd, List.head_cons] at hc
          have hc' : isReSpace c = true := by simpa using hc
          simp [List.takeWhile_cons, hc']
      have hul : ∀ b ∈ (x.takeWhile (fun b => !isReSpace b)).getLast?, isReSpace b = false :=
        fun b hb => hu b (List.mem_of_mem_getLast? hb)
      have hv : ∀ b ∈ ((x.dropWhile (fun b => !isReSpace b)).dropWhile isReSpace).head?,
          isReSpace b = false := by
        intro b hb
        have hne : (x.dropWhile (fun b => !isReSpace b)).dropWhile isReSpace ≠ [] := by
          intro h; rw [h] at hb; simp at hb
        have := List.head_dropWhile_not isReSpace (x.dropWhile (fun b => !isReSpace b)) hne
        rw [List.head?_eq_head hne] at hb
        rw [← Option.some.inj (Option.mem_def.mp hb)]
        exact this
      have hlen : ((x.dropWhile (fun b => !isReSpace b)).dropWhile isReSpace).length < n := by
        have h1 := congrArg List.length hdecomp
        simp only [List.length_append] at h1
        have h2 : 0 < ((x.dropWhile (fun b => !isReSpace b)).takeWhile isReSpace).length :=
          List.length_pos.mpr hwne
        omega
      have ihv := ih _ hlen _ rfl
      subst hn
      have h1 := hrun _ _ _ hwne hw hul hv
      have h2 := replace_run _ _ _ hwne hw hul hv
      rw [← hdecomp] at h1 h2
      rw [h1, h2, ihv, hbase _ hu]
      congr 1
      exact (replace_no_space false _ hu).symm

/-! ## The claims on the scraper -/

/-- Claim C1 fails on the code: the container with the title `Title` and the relative link
`/relative/path` has a non-empty title and a non-empty link that `extractActualURL` resolves
to the empty string, and yet the extraction returns a record for it, whose URL is the raw
link. -/
theorem relative_link_record_kept :
    (⟨lit "Title", [], lit "/relative/path", [], [], []⟩ : ResultElement).title ≠ [] ∧
    (⟨lit "Title", [], lit "/relative/path", [], [], []⟩ : ResultElement).link ≠ [] ∧
    extractActualURL (lit "/relative/path") = [] ∧
    SearchWithColly [⟨lit "Title", [], lit "/relative/path", [], [], []⟩] none =
      ([⟨lit "Title", lit "/relative/path", []⟩], none) := by
  decide

/-- Claim C1, as the code has it: for a result container whose title and raw link are
non-empty and whose link `extractActualURL` resolves to the empty string, the callback
falls back to the raw link (`if actualURL == "" { actualURL = link }`) and appends exactly one
record, with that link as its URL. -/
theorem onResult_unresolved_link (articles : List Article) (e : ResultElement)
    (ht : e.title ≠ []) (hl : e.link ≠ []) (hu : extractActualURL e.link = []) :
    onResult articles e = articles ++
      [{ Title := cleanText e.title, URL := e.link, Description := cleanText e.description }] := by
  simp [onResult, ht, hl, hu]

/-- Claim C1, the amended statement at the container with the relative link. -/
theorem onResult_unresolved_link_witness :
    onResult [] ⟨lit "Title", [], lit "/relative/path", [], [], []⟩ =
      [] ++ [{ Title := cleanText (lit "Title"), URL := lit "/relative/path",
               Description := cleanText [] }] :=
  onResult_unresolved_link [] ⟨lit "Title", [], lit "/relative/path", [], [], []⟩
    (by decide) (by decide) (by decide)

/-- Claim C2 on the code: `extractActualURL` decodes the `uddg` parameter twice, once in
`parsedURL.Query()` and once more in `url.QueryUnescape`.  For the redirect link
`/l/?uddg=%2520`, whose raw parameter `%2520` decodes once to `%20`, it returns a space; for
`/l/?uddg=a%2Bb` it returns `a b` instead of `a+b`.  The example of the claim, whose
destination has no encoded percent or plus sign, comes out right. -/
theorem extractActualURL_decodes_twice :
    QueryUnescape (lit "%2520") = some (lit "%20") ∧
    extractActualURL (lit "/l/?uddg=%2520") = lit " " ∧
    QueryUnescape (lit "a%2Bb") = some (lit "a+b") ∧
    extractActualURL (lit "/l/?uddg=a%2Bb") = lit "a b" ∧
    extractActualURL (lit "/l/?uddg=https%3A%2F%2Fexample.com") = lit "https://example.com" := by
  decide

/-- Claim C3: for a raw link that does not begin with `/l/?uddg=`, `extractActualURL` returns
the link unchanged when it begins with `http` and the empty string otherwise; it returns
`https://example.com/page` unchanged and the empty string for `/relative/path`. -/
theorem extractActualURL_not_redirect (redirectURL : GoString)
    (h : HasPrefix redirectURL (lit "/l/?uddg=") = false) :
    extractActualURL redirectURL =
        (if HasPrefix redirectURL (lit "http") then redirectURL else []) ∧
      extractActualURL (lit "https://example.com/page") = lit "https://example.com/page" ∧
      extractActualURL (lit "/relative/path") = [] := by
  refine ⟨?_, by decide, by decide⟩
  simp [extractActualURL, h]

/-- Claim C3 at the link `http://example.org/a b`, which is returned as it is. -/
theorem extractActualURL_not_redirect_witness :
    HasPrefix (lit "http://example.org/a b") (lit "/l/?uddg=") = false ∧
    extractActualURL (lit "http://example.org/a b") = lit "http://example.org/a b" :=
  ⟨by decide,
    (extractActualURL_not_redirect (lit "http://example.org/a b") (by decide)).1.trans
      (by decide)⟩

/-- Claim C4 on the code: for the redirect link `/l/?uddg=%zz` the URL parses, with the raw
query `uddg=%zz`, but `parsedURL.Query()` drops the pair whose value does not unescape, so
`uddg` is empty, the fallback `return uddg` is never reached, and the function returns the
empty string although the raw parameter `%zz` is not empty. -/
theorem extractActualURL_undecodable_uddg :
    QueryUnescape (lit "%zz") = none ∧
    (Parse (lit "https://duckduckgo.com/l/?uddg=%zz")).map URL.RawQuery =
      some (lit "uddg=%zz") ∧
    (Parse (lit "https://duckduckgo.com/l/?uddg=%zz")).map (fun u => u.Query.Get (lit "uddg")) =
      some [] ∧
    extractActualURL (lit "/l/?uddg=%zz") = [] := by
  decide

/-- Claim C5: every `Article` that the extraction step of `SearchWithColly` returns has a
non-empty `Title` and a non-empty `URL`, whatever the callback read from the result
containers; so has every record the callback appends for a container; and `cleanText` of a
trimmed, non-empty title is never empty. -/
theorem searchWithColly_articles_nonempty (elements : List ResultElement)
    (visitErr : Option GoString) :
    (∀ a ∈ (SearchWithColly elements visitErr).1, a.Title ≠ [] ∧ a.URL ≠ []) ∧
    (∀ (e : ResultElement) (a : Article), candidate e = some a → a.Title ≠ [] ∧ a.URL ≠ []) ∧
    (∀ t : GoString, TrimSpace t ≠ [] → cleanText (TrimSpace t) ≠ []) := by
  refine ⟨?_, candidate_fields, fun t ht => cleanText_ne_nil _ ht (trimSpace_begin t)⟩
  intro a ha
  cases visitErr with
  | some err => simp [SearchWithColly] at ha
  | none =>
    rw [searchWithColly_ok] at ha
    obtain ⟨e, _, he⟩ := List.mem_filterMap.mp (List.mem_of_mem_take ha)
    exact candidate_fields e a he

/-- Claim C6 fails on the code: the text `a\v\vb` has a run of two vertical tabs, which the
trimming step treats as white space (`TrimSpace` removes them at the ends, `unicode.IsSpace`
holds of them) and which `\s` does not match, and `cleanText` returns the text unchanged;
the same holds for a run of two no-break spaces U+00A0. -/
theorem cleanText_keeps_vertical_tabs :
    IsSpace 0x0B = true ∧ isReSpace 0x0B = false ∧
    TrimSpace [0x0B, 0x0B, 0x61, 0x0B] = [0x61] ∧
    cleanText [0x61, 0x0B, 0x0B, 0x62] = [0x61, 0x0B, 0x0B, 0x62] ∧
    cleanText [0x61, 0xC2, 0xA0, 0xC2, 0xA0, 0x62] = [0x61, 0xC2, 0xA0, 0xC2, 0xA0, 0x62] := by
  decide

/-- Claim C6, as the code has it: for every text, `cleanText` returns the text after the
replacement of `\s+` without its leading and trailing white-space runes (in the sense of
`strings.TrimSpace`): what is cut off on either side is made of white-space runes only, the
result neither begins nor ends with a white-space rune, and it is the only such string.  The
replacement keeps a text without bytes of the class `\s` (tab, newline, form feed, carriage
return, space) as it is and replaces every maximal run of `\s` bytes by exactly one space;
these two laws determine it, and it keeps every byte outside `\s`.  So a text without `\s`
bytes that neither begins nor ends with white space is returned unchanged, whatever other
white space (vertical tab, U+0085, U+00A0) it has inside; the output has no `\s` byte other
than single, non-adjacent spaces; and `cleanText("  a\n\tb   c ")` is `a b c`. -/
theorem cleanText_normal_form (x : GoString) :
    -- the trimming step
    (∃ l r, ReplaceAllSpaceRuns x = l ++ cleanText x ++ r ∧ SpaceRunes l ∧ SpaceRunes r) ∧
    IsSpace (DecodeRuneInString (cleanText x)).1 = false ∧
    IsSpace (DecodeLastRuneInString (cleanText x)).1 = false ∧
    (∀ l y r : GoString, ReplaceAllSpaceRuns x = l ++ y ++ r → SpaceRunes l → SpaceRunes r →
      IsSpace (DecodeRuneInString y).1 = false → IsSpace (DecodeLastRuneInString y).1 = false →
      cleanText x = y) ∧
    -- the collapsing step
    ((∀ b ∈ x, isReSpace b = false) → ReplaceAllSpaceRuns x = x) ∧
    (∀ u w v : GoString, x = u ++ w ++ v → w ≠ [] → (∀ b ∈ w, isReSpace b = true) →
      (∀ b ∈ u.getLast?, isReSpace b = false) → (∀ b ∈ v.head?, isReSpace b = false) →
      ReplaceAllSpaceRuns x = ReplaceAllSpaceRuns u ++ 0x20 :: ReplaceAllSpaceRuns v) ∧
    (∀ g : GoString → GoString,
      (∀ z : GoString, (∀ b ∈ z, isReSpace b = false) → g z = z) →
      (∀ u w v : GoString, w ≠ [] → (∀ b ∈ w, isReSpace b = true) →
        (∀ b ∈ u.getLast?, isReSpace b = false) → (∀ b ∈ v.head?, isReSpace b = false) →
        g (u ++ w ++ v) = g u ++ 0x20 :: g v) →
      g x = ReplaceAllSpaceRuns x) ∧
    (ReplaceAllSpaceRuns x).filter (fun b => !isReSpace b) = x.filter (fun b => !isReSpace b) ∧
    -- white space that only the trimming step knows is not collapsed
    ((∀ b ∈ x, isReSpace b = false) → IsSpace (DecodeRuneInString x).1 = false →
      IsSpace (DecodeLastRuneInString x).1 = false → cleanText x = x) ∧
    -- the shape of the output
    cleanText x <:+: ReplaceAllSpaceRuns x ∧
    (∀ b ∈ cleanText x, isReSpace b = true → b = 0x20) ∧
    ¬ [0x20, 0x20] <:+: cleanText x ∧
    cleanText (lit "  a\n\tb   c ") = lit "a b c" := by
  refine ⟨trimSpace_split _, trimSpace_begin _, trimSpace_end _, ?_, replace_no_space false x, ?_,
    fun g hbase hrun => replace_determined g hbase hrun x, replace_filter false x, ?_,
    trimSpace_isInfix _, ?_, ?_, by decide⟩
  · intro l y r hx hl hr hb he
    show TrimSpace (ReplaceAllSpaceRuns x) = y
    rw [hx]
    exact trimSpace_unique l y r hl hr hb he
  · intro u w v hx hne hw hu hv
    rw [hx]
    exact replace_run u w v hne hw hu hv
  · intro hx hb he
    show TrimSpace (ReplaceAllSpaceRuns x) = x
    rw [show ReplaceAllSpaceRuns x = x from replace_no_space false x hx]
    exact trimSpace_fix x hb he
  · exact singleSpaces_mem false _ (cleanText_singleSpaces x)
  · exact singleSpaces_no_double _ (cleanText_singleSpaces x)

/-- Claim C7: `cleanText` is idempotent, `cleanText(cleanText(x)) = cleanText(x)` for every
string `x`, although the collapsing step and the trimming step recognise different white
space (the vertical tab and U+00A0 are white space for `TrimSpace` only). -/
theorem cleanText_idempotent (x : GoString) :
    cleanText (cleanText x) = cleanText x ∧
    (IsSpace 0x0B = true ∧ isReSpace 0x0B = false ∧ IsSpace 0xA0 = true ∧
      isReSpace 0xA0 = false) :=
  ⟨cleanText_idem x, by decide⟩

/-- Claim C8: after a fetch without error, `SearchWithColly` returns, with a nil error, exactly
the first `min(10, n)` of the `n` records that the callback accepted, in the document order
of their containers: at most 10 records, never more than there are containers, and none
when no container matches. -/
theorem searchWithColly_first_ten (elements : List ResultElement) :
    elements.foldl onResult [] = elements.filterMap candidate ∧
    (SearchWithColly elements none).1 =
      (elements.filterMap candidate).take (min 10 (elements.filterMap candidate).length) ∧
    (SearchWithColly elements none).2 = none ∧
    (SearchWithColly elements none).1.length = min 10 (elements.filterMap candidate).length ∧
    (SearchWithColly elements none).1.length ≤ 10 ∧
    (SearchWithColly elements none).1.length ≤ elements.length ∧
    SearchWithColly [] none = ([], none) := by
  have hlen : (elements.filterMap candidate).length ≤ elements.length :=
    List.length_filterMap_le _ _
  rw [searchWithColly_ok]
  refine ⟨by simpa using foldl_onResult elements [], ?_, rfl, ?_, ?_, ?_, rfl⟩
  · simp only [List.take_eq_take, min_eq_left_iff, min_le_iff, List.length_take]
    omega
  · simp only [List.length_take]
  · simp only [List.length_take]; omega
  · simp only [List.length_take]; omega

/-- Claim C9 fails on the code: `Values.Encode` writes the parameters sorted by key, so the
URL built for the query `a` has them in the order `ia`, `q`, `t`, not `q`, `t`, `ia`. -/
theorem buildDuckDuckGoURL_sorted_keys :
    buildDuckDuckGoURL (lit "a") = lit "https://duckduckgo.com/html/?ia=web&q=a&t=h_" ∧
    buildDuckDuckGoURL (lit "a") ≠ lit "https://duckduckgo.com/html/?q=a&t=h_&ia=web" := by
  decide

/-- Claim C9, as the code has it: for every query string `q`, `buildDuckDuckGoURL(q)` is
`https://duckduckgo.com/html/?ia=web&q=` followed by the query-escaped form of `q` followed
by `&t=h_`: the three parameters appear in the order of their keys, `ia`, `q`, `t`; the URL
parses, and the `q` parameter of its query, which is the unescaped form of what was written,
is `q` again. -/
theorem buildDuckDuckGoURL_eq (q : GoString) (hq : IsBytes q) :
    buildDuckDuckGoURL q =
      lit "https://duckduckgo.com/html/?ia=web&q=" ++ QueryEscape q ++ lit "&t=h_" ∧
    QueryUnescape (QueryEscape q) = some q ∧
    (Parse (buildDuckDuckGoURL q)).map (fun u => u.Query.Get (lit "q")) = some q := by
  have hshape := buildDuckDuckGoURL_shape q
  refine ⟨hshape, queryUnescape_queryEscape q hq, ?_⟩
  rw [hshape, parse_search q hq]
  simp only [Option.map_some', URL.Query, parseQuery_search q hq]
  simp [Values.Get, Values.lookup, lit]

/-- Claim C9, the amended statement at the query `golang programming`. -/
theorem buildDuckDuckGoURL_eq_witness :
    buildDuckDuckGoURL (lit "golang programming") =
      lit "https://duckduckgo.com/html/?ia=web&q=golang+programming&t=h_" ∧
    (Parse (buildDuckDuckGoURL (lit "golang programming"))).map
      (fun u => u.Query.Get (lit "q")) = some (lit "golang programming") :=
  have h := buildDuckDuckGoURL_eq (lit "golang programming")
    (by intro b hb; simp [lit] at hb; omega)
  ⟨h.1.trans (by decide), h.2.2⟩

end Webscraper

namespace Main

open Webscraper

/-! ## The claim on the multi-query run -/

theorem printTweets_eq (tweets : List Tweet) (total : Nat) (h : total ≤ 10) :
    printTweets tweets total = min 10 (total + tweets.length) := by
  induction tweets generalizing total with
  | nil => simp [printTweets]; omega
  | cons t rest ih =>
    unfold printTweets
    split_ifs with hc
    · simp only [List.length_cons]; omega
    · rw [ih (total + 1) (by omega)]
      simp only [List.length_cons]; omega

theorem results_of_otherFailure (f : Fetch) (h : f.isOtherFailure = true) : f.results = 0 := by
  rcases f with _ | ⟨s, _ | tweets⟩
  · rfl
  · rfl
  · simp only [Fetch.isOtherFailure, Bool.and_eq_true, Bool.or_eq_true, bne_iff_ne, ne_eq,
      beq_iff_eq] at h
    simp only [Fetch.results]
    split_ifs with hs
    · rcases h.2 with (h2 | h2) | h2
      · exact absurd hs h2
      · cases h2
      · simp at h2; simp [h2]
    · rfl

theorem results_of_rateLimit (f : Fetch) (h : f.isRateLimit = true) : f.results = 0 := by
  rcases f with _ | ⟨s, _ | tweets⟩
  · rfl
  · rfl
  · simp only [Fetch.isRateLimit, beq_iff_eq] at h
    simp [Fetch.results, h]

theorem searchLoop_cap (baseURL : GoString) (get : Nat → GoString → Fetch) (term : GoString)
    (rest : List GoString) (total : Nat) (fetched : List (GoString × Fetch)) (h : 10 ≤ total) :
    searchLoop baseURL get (term :: rest) total fetched = finish total fetched := by
  simp [searchLoop, h]

theorem searchLoop_rateLimit (baseURL : GoString) (get : Nat → GoString → Fetch)
    (term : GoString) (rest : List GoString) (total : Nat) (fetched : List (GoString × Fetch))
    (h : total < 10)
    (hr : (get fetched.length (apiURL baseURL term)).isRateLimit = true) :
    searchLoop baseURL get (term :: rest) total fetched =
      { err := some .rateLimit, totalTweets := total,
        fetched := fetched ++ [(term, get fetched.length (apiURL baseURL term))] } := by
  have hc : ¬ total ≥ 10 := by omega
  unfold searchLoop
  rcases hg : get fetched.length (apiURL baseURL term) with _ | ⟨s, d⟩
  · rw [hg] at hr; simp [Fetch.isRateLimit] at hr
  · rw [hg] at hr
    simp only [Fetch.isRateLimit, beq_iff_eq] at hr
    simp [hc, hr]

theorem searchLoop_continue (baseURL : GoString) (get : Nat → GoString → Fetch)
    (term : GoString) (rest : List GoString) (total : Nat) (fetched : List (GoString × Fetch))
    (h : total < 10)
    (hr : (get fetched.length (apiURL baseURL term)).isRateLimit = false) :
    searchLoop baseURL get (term :: rest) total fetched =
      searchLoop baseURL get rest
        (min 10 (total + (get fetched.length (apiURL baseURL term)).results))
        (fetched ++ [(term, get fetched.length (apiURL baseURL term))]) := by
  have hc : ¬ total ≥ 10 := by omega
  have hmin : min 10 (total + 0) = total := by omega
  have hmin' : min 10 total = total := by omega
  conv_lhs => unfold searchLoop
  rcases hg : get fetched.length (apiURL baseURL term) with _ | ⟨s, _ | tweets⟩
  · simp [hc, Fetch.results, hmin']
  · rw [hg] at hr
    simp only [Fetch.isRateLimit, beq_eq_false_iff_ne, ne_eq] at hr
    simp only [hc, hr, if_false, Fetch.results, hmin]
    split_ifs <;> rfl
  · rw [hg] at hr
    simp only [Fetch.isRateLimit, beq_eq_false_iff_ne, ne_eq] at hr
    simp only [hc, hr, if_false, Fetch.results]
    by_cases hs : s = 200
    · by_cases hl : tweets.length = 0
      · simp [hs, hl, hmin']
      · simp only [hs, hl, if_false, if_true, ne_eq, not_true_eq_false]
        rw [printTweets_eq tweets total (by omega)]
    · simp [hs, hmin']


theorem resultsSum_append (a b : List (GoString × Fetch)) :
    resultsSum (a ++ b) = resultsSum a + resultsSum b := by
  simp [resultsSum]

theorem resultsSum_single (x : GoString × Fetch) : resultsSum [x] = x.2.results := by
  simp [resultsSum]

theorem finish_fields (total : Nat) (fetched : List (GoString × Fetch)) :
    (finish total fetched).fetched = fetched ∧ (finish total fetched).totalTweets = total ∧
    ((finish total fetched).err = some .noTweets ↔ total = 0) ∧
    (finish total fetched).err ≠ some .rateLimit := by
  unfold finish
  split_ifs with h <;> simp [h]

/-- The loop from any state that the run can reach: what is fetched from there on (`extra`)
and how the run ends. -/
theorem searchLoop_spec (baseURL : GoString) (get : Nat → GoString → Fetch)
    (qs : List GoString) (total : Nat) (fetched : List (GoString × Fetch))
    (ht : total = min 10 (resultsSum fetched)) :
    ∃ extra : List (GoString × Fetch),
      (searchLoop baseURL get qs total fetched).fetched = fetched ++ extra ∧
      extra.map Prod.fst <+: qs ∧
      (∀ i term resp, extra[i]? = some (term, resp) →
        resp = get (fetched.length + i) (apiURL baseURL term)) ∧
      (∀ f ∈ extra.dropLast, f.2.isRateLimit = false) ∧
      ((searchLoop baseURL get qs total fetched).err = some .rateLimit ↔
        ∃ f ∈ extra, f.2.isRateLimit = true) ∧
      (searchLoop baseURL get qs total fetched).totalTweets =
        min 10 (resultsSum (fetched ++ extra)) ∧
      ((searchLoop baseURL get qs total fetched).err = some .noTweets ↔
        (∀ f ∈ extra, f.2.isRateLimit = false) ∧
          (searchLoop baseURL get qs total fetched).totalTweets = 0) ∧
      ((∀ f ∈ extra, f.2.isRateLimit = false) →
        (searchLoop baseURL get qs total fetched).totalTweets < 10 →
        extra.length = qs.length) := by
  induction qs generalizing total fetched with
  | nil =>
    have hf := finish_fields total fetched
    refine ⟨[], ?_, ?_, ?_, ?_, ?_, ?_, ?_, ?_⟩
    · simpa [searchLoop] using hf.1
    · simp
    · simp
    · simp
    · simpa [searchLoop] using hf.2.2.2
    · simpa [searchLoop] using hf.2.1.trans ht
    · simp [searchLoop, hf.2.2.1, hf.2.1]
    · simp
  | cons term rest ih =>
    by_cases hcap : 10 ≤ total
    · have hf := finish_fields total fetched
      rw [searchLoop_cap _ _ _ _ _ _ hcap]
      refine ⟨[], ?_, ?_, ?_, ?_, ?_, ?_, ?_, ?_⟩
      · simpa using hf.1
      · simp
      · simp
      · simp
      · simpa using hf.2.2.2
      · simpa using hf.2.1.trans ht
      · simp [hf.2.2.1, hf.2.1]
      · intro _ hlt
        rw [hf.2.1] at hlt
        omega
    · have hlt : total < 10 := by omega
      cases hr : (get fetched.length (apiURL baseURL term)).isRateLimit
      · -- the request is answered without a rate-limit signal: the loop goes on
        rw [searchLoop_continue _ _ _ _ _ _ hlt hr]
        have ht' : min 10 (total + (get fetched.length (apiURL baseURL term)).results) =
            min 10 (resultsSum
              (fetched ++ [(term, get fetched.length (apiURL baseURL term))])) := by
          rw [resultsSum_append, resultsSum_single]
          dsimp only
          omega
        obtain ⟨extra, h1, h2, h3, h4, h5, h6, h7, h8⟩ := ih _ _ ht'
        refine ⟨(term, get fetched.length (apiURL baseURL term)) :: extra, ?_, ?_, ?_, ?_, ?_,
          ?_, ?_, ?_⟩
        · rw [h1]; simp
        · simpa using h2
        · intro i t r hi
          cases i with
          | zero =>
            simp only [List.getElem?_cons_zero, Option.some.injEq, Prod.mk.injEq] at hi
            rw [← hi.1, ← hi.2]; rfl
          | succ j =>
            simp only [List.getElem?_cons_succ] at hi
            have := h3 j t r hi
            simp only [List.length_append, List.length_singleton] at this
            rw [this]
            congr 1
            omega
        · intro f hf
          cases extra with
          | nil => simp at hf
          | cons x xs =>
            simp only [List.dropLast_cons₂, List.mem_cons] at hf
            rcases hf with rfl | hf
            · exact hr
            · exact h4 f hf
        · rw [h5]
          constructor
          · rintro ⟨f, hf, hfr⟩; exact ⟨f, List.mem_cons_of_mem _ hf, hfr⟩
          · rintro ⟨f, hf, hfr⟩
            rcases List.mem_cons.mp hf with rfl | hf
            · rw [hr] at hfr; cases hfr
            · exact ⟨f, hf, hfr⟩
        · rw [h6]; simp
        · rw [h7]
          constructor
          · rintro ⟨ha, hb⟩
            refine ⟨fun f hf => ?_, hb⟩
            rcases List.mem_cons.mp hf with rfl | hf
            · exact hr
            · exact ha f hf
          · rintro ⟨ha, hb⟩
            exact ⟨fun f hf => ha f (List.mem_cons_of_mem _ hf), hb⟩
        · intro ha hb
          have := h8 (fun f hf => ha f (List.mem_cons_of_mem _ hf)) hb
          simp [this]
      · -- the rate-limit signal: the run ends here
        rw [searchLoop_rateLimit _ _ _ _ _ _ hlt hr]
        refine ⟨[(term, get fetched.length (apiURL baseURL term))], rfl, ?_, ?_, ?_, ?_, ?_, ?_,
          ?_⟩
        · simp
        · intro i t r hi
          cases i with
          | zero =>
            simp only [List.getElem?_cons_zero, Option.some.injEq, Prod.mk.injEq] at hi
            rw [← hi.1, ← hi.2]; rfl
          | succ j => simp at hi
        · simp
        · simp [hr]
        · simp only
          rw [resultsSum_append, resultsSum_single]
          dsimp only
          rw [results_of_rateLimit _ hr]
          omega
        · simp [hr]
        · intro ha
          have := ha _ (List.mem_singleton_self _)
          rw [hr] at this
          cases this

/-- Claim C10: for every batch of queries and every sequence of upstream responses, the
requests of the run are the first queries of the batch, in order, the `i`-th answered by the
`i`-th response.  The run fails exactly when a request it made was answered with status 429
or, no request being so answered, the counter is zero at the end: in the first case the
error is the rate-limit error and the request so answered is the last one made, in the
second it is the no-results error (and every query was requested).  Otherwise there is no
error and the counter is between 1 and 10.  The counter is the number of results of the
responses received, capped at 10, where a transport error, a status other than 200, an
undecodable body and empty data count for zero results. -/
theorem searchLoop_outcome (baseURL : GoString) (get : Nat → GoString → Fetch)
    (qs : List GoString) :
    (searchBatch baseURL get qs).fetched.map Prod.fst <+: qs ∧
    (∀ i term resp, (searchBatch baseURL get qs).fetched[i]? = some (term, resp) →
      resp = get i (apiURL baseURL term)) ∧
    ((searchBatch baseURL get qs).err ≠ none ↔
      (∃ f ∈ (searchBatch baseURL get qs).fetched, f.2.isRateLimit = true) ∨
      ((∀ f ∈ (searchBatch baseURL get qs).fetched, f.2.isRateLimit = false) ∧
        (searchBatch baseURL get qs).totalTweets = 0)) ∧
    ((searchBatch baseURL get qs).err = some .rateLimit ↔
      ∃ f ∈ (searchBatch baseURL get qs).fetched, f.2.isRateLimit = true) ∧
    (∀ f ∈ (searchBatch baseURL get qs).fetched.dropLast, f.2.isRateLimit = false) ∧
    ((searchBatch baseURL get qs).err = some .noTweets ↔
      (∀ f ∈ (searchBatch baseURL get qs).fetched, f.2.isRateLimit = false) ∧
        (searchBatch baseURL get qs).totalTweets = 0) ∧
    ((searchBatch baseURL get qs).err = some .noTweets →
      (searchBatch baseURL get qs).fetched.length = qs.length) ∧
    ((searchBatch baseURL get qs).err = none →
      1 ≤ (searchBatch baseURL get qs).totalTweets ∧
        (searchBatch baseURL get qs).totalTweets ≤ 10) ∧
    (searchBatch baseURL get qs).totalTweets =
      min 10 (resultsSum (searchBatch baseURL get qs).fetched) ∧
    (∀ f : Fetch, f.isOtherFailure = true → f.results = 0) ∧
    searchRecentTweets baseURL get = searchBatch baseURL get searchTerms := by
  obtain ⟨extra, h1, h2, h3, h4, h5, h6, h7, h8⟩ :=
    searchLoop_spec baseURL get qs 0 [] (by simp [resultsSum])
  unfold searchBatch
  rw [List.nil_append] at h1 h6
  rw [h1]
  have hnone : (searchLoop baseURL get qs 0 []).err ≠ none ↔
      ((searchLoop baseURL get qs 0 []).err = some .rateLimit ∨
        (searchLoop baseURL get qs 0 []).err = some .noTweets) := by
    rcases (searchLoop baseURL get qs 0 []).err with _ | _ | _ <;> simp
  refine ⟨h2, ?_, ?_, h5, h4, h7, ?_, ?_, h6, results_of_otherFailure, rfl⟩
  · intro i term resp hi
    have := h3 i term resp hi
    simpa using this
  · rw [hnone, h5, h7]
  · intro he
    have h := h7.mp he
    exact h8 h.1 (by rw [h.2]; omega)
  · intro he
    have hr : ¬ ∃ f ∈ extra, f.2.isRateLimit = true := by
      rw [← h5, he]; simp
    have hz : (searchLoop baseURL get qs 0 []).totalTweets ≠ 0 := by
      intro hz
      have : (searchLoop baseURL get qs 0 []).err = some .noTweets :=
        h7.mpr ⟨fun f hf => by
          cases hf' : f.2.isRateLimit
          · rfl
          · exact absurd ⟨f, hf, hf'⟩ hr, hz⟩
      rw [he] at this
      cases this
    constructor
    · omega
    · rw [h6]; omega

end Main
